import Mathlib

/-!
Verification development for the `auto-envparse` configuration-population
engine (`src/autoEnvParse.ts`).  The TypeScript source is shallowly embedded:
JavaScript runtime values become the inductive `JsVal`, the process
environment / flat input map becomes an association list of strings, and each
static method of the `AutoEnvParse` class becomes a Lean function translated
from the corresponding source lines.  Console warnings are side channels with
no effect on results and are not modelled.  JavaScript `for (const k in o)`
iteration is modelled as iteration over the association list in insertion
order (all keys used by the engine and its inputs are non-numeric strings,
for which JS guarantees insertion order).
-/

namespace AutoEnv

/-- ASCII lower-casing of a character (JS `toLowerCase` restricted to ASCII;
the engine only manipulates ASCII identifiers and env-var names). -/
def lowChar (c : Char) : Char :=
  if 'A' ≤ c ∧ c ≤ 'Z' then Char.ofNat (c.toNat + 32) else c

/-- ASCII upper-casing of a character (JS `toUpperCase` restricted to ASCII). -/
def upChar (c : Char) : Char :=
  if 'a' ≤ c ∧ c ≤ 'z' then Char.ofNat (c.toNat - 32) else c

/-- ASCII lower-casing of a string. -/
def lowStr (s : String) : String := String.mk (s.data.map lowChar)

/-- ASCII upper-casing of a string. -/
def upStr (s : String) : String := String.mk (s.data.map upChar)

/-- Whitespace characters removed by JS `String.prototype.trim`
(the common ASCII ones; the engine only trims env-var values). -/
def isWs (c : Char) : Bool :=
  c = ' ' ∨ c = '\t' ∨ c = '\n' ∨ c = '\r' ∨ c = Char.ofNat 11 ∨ c = Char.ofNat 12

/-- JS `String.prototype.trim` on a character list. -/
def trimChars (l : List Char) : List Char :=
  ((l.dropWhile isWs).reverse.dropWhile isWs).reverse

/-- JS `String.prototype.trim`. -/
def trimStr (s : String) : String := String.mk (trimChars s.data)

/-- ASCII decimal digit test (regex `\d`). -/
def isDig (c : Char) : Bool := '0' ≤ c ∧ c ≤ '9'

/-- ASCII uppercase-letter test (regex `[A-Z]`). -/
def isUp (c : Char) : Bool := 'A' ≤ c ∧ c ≤ 'Z'

/-- ASCII lowercase-letter test (regex `[a-z]`). -/
def isLow (c : Char) : Bool := 'a' ≤ c ∧ c ≤ 'z'

/-- Numeric value of a string of decimal digits (JS `parseInt(ds, 10)` on an
all-digit string). -/
def digitsToNat (l : List Char) : Nat :=
  l.foldl (fun acc c => acc * 10 + (c.toNat - '0'.toNat)) 0

/-- The universe of JavaScript runtime values handled by the engine.
Numbers are modelled by the integer subset (`vint`) plus `vnan`; the engine
parses numbers with `parseFloat`, whose fractional/exponent inputs are not
exercised by this development.  `vobj` is a plain object (prototype
`Object.prototype`/`null`), `vcomp` a class instance (opaque composite),
`vregexp` a `RegExp` instance carrying its source pattern and any extra own
enumerable properties later assigned onto it.  Field lists are in property
insertion order. -/
inductive JsVal where
  | vstr : String → JsVal
  | vint : Int → JsVal
  | vnan : JsVal
  | vbool : Bool → JsVal
  | vnull : JsVal
  | vundef : JsVal
  | vobj : List (String × JsVal) → JsVal
  | vcomp : List (String × JsVal) → JsVal
  | varr : List JsVal → JsVal
  | vregexp : String → List (String × JsVal) → JsVal

/-- Association list of fields of a JS object. -/
abbrev Fields := List (String × JsVal)

/-- The flat string-keyed input map (merged environment). -/
abbrev EnvMap := List (String × String)

/-- Read an object property (`o[k]`); `none` models `undefined`. -/
def getField : Fields → String → Option JsVal
  | [], _ => none
  | (k, v) :: rest, key => if k = key then some v else getField rest key

/-- Property write `o[k] = v`: overwrites in place if the key exists,
otherwise appends (JS insertion order). -/
def setField : Fields → String → JsVal → Fields
  | [], key, v => [(key, v)]
  | (k, w) :: rest, key, v =>
    if k = key then (k, v) :: rest else (k, w) :: setField rest key v

/-- `Object.assign(target, src)`: copy every own enumerable property of
`src` onto `target` in order. -/
def assignFields (target : Fields) (src : Fields) : Fields :=
  src.foldl (fun acc kv => setField acc kv.1 kv.2) target

/-- Lookup in the flat input map (`envSource[name]`). -/
def envGet : EnvMap → String → Option String
  | [], _ => none
  | (k, v) :: rest, key => if k = key then some v else envGet rest key

/-- Write one key of a string map. -/
def setKey : EnvMap → String → String → EnvMap
  | [], key, v => [(key, v)]
  | (k, w) :: rest, key, v =>
    if k = key then (k, v) :: rest else (k, w) :: setKey rest key v

/-- `Object.assign(merged, src)` on string maps. -/
def assignEnv (target : EnvMap) (src : EnvMap) : EnvMap :=
  src.foldl (fun acc kv => setKey acc kv.1 kv.2) target

/-- JS `typeof`. -/
def typeofStr : JsVal → String
  | .vstr _ => "string"
  | .vint _ => "number"
  | .vnan => "number"
  | .vbool _ => "boolean"
  | .vnull => "object"
  | .vundef => "undefined"
  | .vobj _ => "object"
  | .vcomp _ => "object"
  | .varr _ => "object"
  | .vregexp _ _ => "object"

/-- `AutoEnvParse.isPlainObject` (source lines 245-251): prototype is
`Object.prototype` or `null`, i.e. exactly the `vobj` constructor. -/
def isPlainObject : JsVal → Bool
  | .vobj _ => true
  | _ => false

/-- `typeof v === 'object' && v !== null && !Array.isArray(v)` — the guard
used for recursing into nested objects. -/
def isObjectNonArray : JsVal → Bool
  | .vobj _ => true
  | .vcomp _ => true
  | .vregexp _ _ => true
  | _ => false

mutual

/-- One global pass of the first replace in `toSnakeCase`
(source line 756): regex `([A-Z]+)([A-Z][a-z])` replaced by `$1_$2`.
Scans left to right; `r1go` accumulates the current uppercase run
(in reverse). -/
def snakeR1 : List Char → List Char
  | [] => []
  | c :: cs => if isUp c then snakeR1go [c] cs else c :: snakeR1 cs

/-- Helper for `snakeR1`: `run` is the reversed uppercase run read so far
(nonempty).  A match needs a run of length at least two followed by a
lowercase letter; the underscore goes before the run's last capital.  With a
non-matching follower the whole run is emitted unchanged (no match can start
inside it) and scanning resumes. -/
def snakeR1go (run : List Char) : List Char → List Char
  | [] => run.reverse
  | d :: rest =>
    if isUp d then snakeR1go (d :: run) rest
    else if isLow d ∧ 2 ≤ run.length then
      run.reverse.dropLast ++ '_' :: run.head! :: d :: snakeR1 rest
    else
      run.reverse ++ d :: snakeR1 rest

end

/-- Second replace in `toSnakeCase` (source line 758): regex
`([a-z])([A-Z])` replaced by `$1_$2`, global, non-overlapping. -/
def snakeR2 : List Char → List Char
  | [] => []
  | [c] => [c]
  | a :: b :: rest =>
    if isLow a ∧ isUp b then a :: '_' :: b :: snakeR2 rest
    else a :: snakeR2 (b :: rest)

/-- `AutoEnvParse.toSnakeCase` (source lines 753-761). -/
def toSnakeCase (s : String) : String :=
  lowStr (String.mk (snakeR2 (snakeR1 s.data)))

/-- `AutoEnvParse.buildEnvVarName` (source lines 306-309). -/
def buildEnvVarName (pfx : String) (key : String) : String :=
  let snakeKey := upStr (toSnakeCase key)
  if pfx ≠ "" then pfx ++ "_" ++ snakeKey else snakeKey

/-- The full lookup key of a field: `buildEnvVarName`, named as in the spec. -/
def localKey (fieldName : String) : String := upStr (toSnakeCase fieldName)

/-- `AutoEnvParse.parseBoolean` (source lines 702-720); the strict-mode
warning is a side channel and does not affect the result. -/
def parseBoolean (value : String) : Bool :=
  let normalized := lowStr (trimStr value)
  if normalized ∈ ["true", "1", "yes", "on"] then true
  else if normalized ∈ ["false", "0", "no", "off"] then false
  else false

/-- `AutoEnvParse.parseNumber` (source lines 728-734), i.e. `parseFloat`:
skip leading whitespace, optional sign, then the longest digit prefix;
no digits yields `NaN`.  (Integer subset of `parseFloat`; fractional and
exponent forms are not exercised by the engine's specification.) -/
def parseNumber (value : String) : JsVal :=
  let l := value.data.dropWhile isWs
  let core : List Char → Option Nat := fun cs =>
    let ds := cs.takeWhile isDig
    if ds.isEmpty then none else some (digitsToNat ds)
  match l with
  | '-' :: rest =>
    match core rest with
    | some n => .vint (-(n : Int))
    | none => .vnan
  | '+' :: rest =>
    match core rest with
    | some n => .vint (n : Int)
    | none => .vnan
  | _ =>
    match core l with
    | some n => .vint (n : Int)
    | none => .vnan

/-- `AutoEnvParse.coerceValue` (source lines 669-679). -/
def coerceValue (value : String) (type : String) : JsVal :=
  if type = "boolean" then .vbool (parseBoolean value)
  else if type = "number" then parseNumber value
  else .vstr value

/-- Character class of the prefix-validation regex `[A-Z0-9]`. -/
def isPrefixChar (c : Char) : Bool := isUp c ∨ isDig c

/-- `/^[A-Z0-9]+$/.test p` (source line 199). -/
def testPrefixPattern (p : String) : Bool :=
  ¬ p.data.isEmpty ∧ p.data.all isPrefixChar

/-- Opening brace character (written via its code point). -/
def lbraceC : Char := Char.ofNat 123

/-- Closing brace character (written via its code point). -/
def rbraceC : Char := Char.ofNat 125

/-- JSON whitespace (`ws` in the JSON grammar). -/
def isJsonWs (c : Char) : Bool := c = ' ' ∨ c = '\t' ∨ c = '\n' ∨ c = '\r'

/-- Skip JSON whitespace. -/
def skipWs (l : List Char) : List Char := l.dropWhile isJsonWs

/-- Body of a JSON string literal after the opening quote: returns the decoded
characters and the remainder after the closing quote.  Basic escapes only
(the engine's structured-string inputs are plain ASCII). -/
def jsonStrChars : List Char → Option (List Char × List Char)
  | [] => none
  | c :: rest =>
    if c = '"' then some ([], rest)
    else if c = '\\' then
      match rest with
      | [] => none
      | e :: rest2 =>
        let dec : Option Char :=
          if e = '"' then some '"'
          else if e = '\\' then some '\\'
          else if e = '/' then some '/'
          else if e = 'b' then some (Char.ofNat 8)
          else if e = 'f' then some (Char.ofNat 12)
          else if e = 'n' then some '\n'
          else if e = 'r' then some '\r'
          else if e = 't' then some '\t'
          else none
        match dec with
        | some ch =>
          match jsonStrChars rest2 with
          | some (cs, rem) => some (ch :: cs, rem)
          | none => none
        | none => none
    else
      match jsonStrChars rest with
      | some (cs, rem) => some (c :: cs, rem)
      | none => none

/-- JSON number literal (integer subset: optional minus, digit run).
Fractional and exponent forms are outside the modelled value universe. -/
def jsonNum (l : List Char) : Option (JsVal × List Char) :=
  let neg := match l with
    | '-' :: _ => true
    | _ => false
  let l2 := if neg then l.tail else l
  let ds := l2.takeWhile isDig
  if ds.isEmpty then none
  else
    let rest := l2.drop ds.length
    match rest with
    | '.' :: _ => none
    | 'e' :: _ => none
    | 'E' :: _ => none
    | _ =>
      let n : Int := (digitsToNat ds : Int)
      some (if neg then .vint (-n) else .vint n, rest)

mutual

/-- One JSON value (`JSON.parse` grammar, integer-number subset);
returns the value and the unconsumed remainder. -/
def jsonVal (fuel : Nat) (l : List Char) : Option (JsVal × List Char) :=
  match fuel with
  | 0 => none
  | fuel + 1 =>
    match l with
    | [] => none
    | c :: rest =>
      if c = lbraceC then
        let l2 := skipWs rest
        match l2 with
        | d :: rest2 =>
          if d = rbraceC then some (.vobj [], rest2)
          else
            match jsonMembers fuel l2 [] with
            | some (fs, rem) => some (.vobj fs, rem)
            | none => none
        | [] => none
      else if c = '[' then
        let l2 := skipWs rest
        match l2 with
        | d :: rest2 =>
          if d = ']' then some (.varr [], rest2)
          else
            match jsonElems fuel l2 [] with
            | some (es, rem) => some (.varr es, rem)
            | none => none
        | [] => none
      else if c = '"' then
        match jsonStrChars rest with
        | some (cs, rem) => some (.vstr (String.mk cs), rem)
        | none => none
      else if c = 't' then
        match l with
        | 't' :: 'r' :: 'u' :: 'e' :: rem => some (.vbool true, rem)
        | _ => none
      else if c = 'f' then
        match l with
        | 'f' :: 'a' :: 'l' :: 's' :: 'e' :: rem => some (.vbool false, rem)
        | _ => none
      else if c = 'n' then
        match l with
        | 'n' :: 'u' :: 'l' :: 'l' :: rem => some (.vnull, rem)
        | _ => none
      else jsonNum l

/-- Members of a JSON object (after the opening brace, first key expected);
duplicate keys keep the first position with the last value, as in
`JSON.parse`. -/
def jsonMembers (fuel : Nat) (l : List Char) (acc : Fields) :
    Option (Fields × List Char) :=
  match fuel with
  | 0 => none
  | fuel + 1 =>
    match l with
    | '"' :: rest =>
      match jsonStrChars rest with
      | some (cs, rem) =>
        let key := String.mk cs
        match skipWs rem with
        | ':' :: rem2 =>
          match jsonVal fuel (skipWs rem2) with
          | some (v, rem3) =>
            let acc2 := setField acc key v
            match skipWs rem3 with
            | ',' :: rem4 => jsonMembers fuel (skipWs rem4) acc2
            | d :: rem4 =>
              if d = rbraceC then some (acc2, rem4) else none
            | [] => none
          | none => none
        | _ => none
      | none => none
    | _ => none

/-- Elements of a JSON array (after the opening bracket, first element
expected). -/
def jsonElems (fuel : Nat) (l : List Char) (acc : List JsVal) :
    Option (List JsVal × List Char) :=
  match fuel with
  | 0 => none
  | fuel + 1 =>
    match jsonVal fuel l with
    | some (v, rem) =>
      let acc2 := acc ++ [v]
      match skipWs rem with
      | ',' :: rem2 => jsonElems fuel (skipWs rem2) acc2
      | ']' :: rem2 => some (acc2, rem2)
      | _ => none
    | none => none

end

/-- `JSON.parse` on a whole string: a single value with only whitespace
around it; `none` models a thrown `SyntaxError`. -/
def jsonParse (s : String) : Option JsVal :=
  match jsonVal (2 * s.length + 8) (skipWs s.data) with
  | some (v, rem) => if (skipWs rem).isEmpty then some v else none
  | none => none

mutual

/-- `JSON.parse(JSON.stringify(v))` deep-clone semantics: `NaN` becomes
`null`, class instances and `RegExp` objects flatten to plain objects of
their own enumerable properties, `undefined` inside an array becomes `null`
(`cloneFields` drops `undefined`-valued properties). -/
def cloneVal : JsVal → JsVal
  | .vstr s => .vstr s
  | .vint n => .vint n
  | .vnan => .vnull
  | .vbool b => .vbool b
  | .vnull => .vnull
  | .vundef => .vnull
  | .vobj fs => .vobj (cloneFields fs)
  | .vcomp fs => .vobj (cloneFields fs)
  | .vregexp _ fs => .vobj (cloneFields fs)
  | .varr es => .varr (cloneList es)

/-- Clone of an object's property list: `undefined`-valued properties are
dropped by `JSON.stringify`. -/
def cloneFields : Fields → Fields
  | [] => []
  | (_, .vundef) :: rest => cloneFields rest
  | (k, v) :: rest => (k, cloneVal v) :: cloneFields rest

/-- Clone of an array's elements. -/
def cloneList : List JsVal → List JsVal
  | [] => []
  | v :: rest => cloneVal v :: cloneList rest

end

mutual

/-- The assignments performed by the `for (const key in defaultValue)` loop
of `AutoEnvParse.loadNestedFromEnv` (source lines 638-657), in iteration
order: a plain nested object field is assigned the recursive result, a leaf
field with a non-empty env value is assigned its coercion, and other fields
are left untouched.  The new value of each field depends only on the default
value and the env, so performing the `result[key] = ...` writes one by one
is `Object.assign` of this list onto the cloned default. -/
def lnUpdates (env : EnvMap) (pfx : String) : Fields → Fields
  | [] => []
  | (k, v) :: rest =>
    let envKey := buildEnvVarName pfx k
    if isPlainObject v then
      (k, lnValUpdate env envKey v) :: lnUpdates env pfx rest
    else
      match envGet env envKey with
      | some s =>
        if s ≠ "" then
          (k, coerceValue s (typeofStr v)) :: lnUpdates env pfx rest
        else lnUpdates env pfx rest
      | none => lnUpdates env pfx rest

/-- The recursive `loadNestedFromEnv` call on a plain nested object field,
with the callee's body (clone, then the update loop) unfolded once so that
the recursion is structural. -/
def lnValUpdate (env : EnvMap) (envKey : String) : JsVal → JsVal
  | .vobj inner =>
    .vobj (assignFields (cloneFields inner) (lnUpdates env envKey inner))
  | v => v

end

/-- `AutoEnvParse.loadNestedFromEnv` (source lines 630-660): deep-clone the
default value, then for each of its fields either recurse (plain nested
object), coerce a non-empty env value (an empty string means "no value
set"), or keep the cloned default. -/
def loadNestedFromEnv (pfx : String) (d : Fields) (env : EnvMap) : Fields :=
  assignFields (cloneFields d) (lnUpdates env pfx d)

/-- Property read `template[k]` used by the array-element walker;
a missing property is `undefined`. -/
def tplGet (template : JsVal) (k : String) : JsVal :=
  match template with
  | .vobj fs => (getField fs k).getD .vundef
  | .vcomp fs => (getField fs k).getD .vundef
  | .vregexp _ fs => (getField fs k).getD .vundef
  | _ => .vundef

mutual

/-- `AutoEnvParse.parseObjectPropertiesRecursive` (source lines 399-418)
acting on the target value: walks the target's own fields, recursing when the
corresponding template value is a non-null non-array object, otherwise
coercing a non-empty env value typed by the template value.  The source
mutates `target` in place; here the updated value is returned.  (For-in over
a non-object target iterates nothing.) -/
def parseOPRv (env : EnvMap) (envVarName : String) (template : JsVal) :
    JsVal → JsVal
  | .vobj fs => .vobj (parseOPRfields env envVarName template fs)
  | .vcomp fs => .vcomp (parseOPRfields env envVarName template fs)
  | .vregexp s fs => .vregexp s (parseOPRfields env envVarName template fs)
  | v => v

/-- The per-field loop of `parseObjectPropertiesRecursive`. -/
def parseOPRfields (env : EnvMap) (envVarName : String) (template : JsVal) :
    Fields → Fields
  | [] => []
  | (k, v) :: rest =>
    let templateValue := tplGet template k
    let propKey := envVarName ++ "_" ++ upStr (toSnakeCase k)
    let head :=
      if isObjectNonArray templateValue then
        (k, parseOPRv env propKey templateValue v)
      else
        match envGet env propKey with
        | some s =>
          if s ≠ "" then (k, coerceValue s (typeofStr templateValue)) else (k, v)
        | none => (k, v)
    head :: parseOPRfields env envVarName template rest

end

/-- `AutoEnvParse.parseArrayElement` (source lines 370-387): object templates
are deep-cloned and walked with dot-notation; primitive or array templates
are returned unchanged. -/
def parseArrayElement (envVarName : String) (template : JsVal) (env : EnvMap) :
    JsVal :=
  match template with
  | .vobj _ => parseOPRv env envVarName template (cloneVal template)
  | .vcomp _ => parseOPRv env envVarName template (cloneVal template)
  | .vregexp _ _ => parseOPRv env envVarName template (cloneVal template)
  | t => t

/-- One key of the flat map matched against the positional pattern
`^NAME_(\d+)_` with the `i` flag (source line 347): case-insensitive prefix,
then a maximal nonempty digit run, then an underscore.  Returns
`parseInt(digits, 10)`. -/
def matchIndexKey (name : String) (key : String) : Option Nat :=
  let pfxU := (upStr name).data ++ ['_']
  let keyU := (upStr key).data
  if pfxU.isPrefixOf keyU then
    let rest := keyU.drop pfxU.length
    let ds := rest.takeWhile isDig
    if ds.isEmpty then none
    else
      match rest.drop ds.length with
      | '_' :: _ => some (digitsToNat ds)
      | _ => none
  else none

/-- Ascending insertion into a sorted list. -/
def insertAsc (n : Nat) : List Nat → List Nat
  | [] => [n]
  | m :: rest => if n ≤ m then n :: m :: rest else m :: insertAsc n rest

/-- Ascending insertion sort, modelling `.sort((a, b) => a - b)`; on the
distinct indices produced by a `Set` every correct ascending sort agrees. -/
def sortNats : List Nat → List Nat
  | [] => []
  | n :: rest => insertAsc n (sortNats rest)

/-- Deduplication keeping first occurrences (the insertion-order semantics
of a JS `Set`). -/
def dedupFirst : List Nat → List Nat
  | [] => []
  | n :: rest => n :: (dedupFirst rest).filter (· ≠ n)

/-- `AutoEnvParse.detectArrayIndices` (source lines 345-358): scan all flat
map keys for the positional pattern, collect the distinct indices
(`Set` keeps first insertions), return them sorted ascending. -/
def detectArrayIndices (name : String) (env : EnvMap) : List Nat :=
  sortNats (dedupFirst (env.filterMap (fun kv => matchIndexKey name kv.1)))

mutual

/-- JS `String(v)` coercion (used by `new RegExp(p)` on non-string input). -/
def jsToStr : JsVal → String
  | .vstr s => s
  | .vint n => toString n
  | .vnan => "NaN"
  | .vbool b => if b then "true" else "false"
  | .vnull => "null"
  | .vundef => "undefined"
  | .vobj _ => "[object Object]"
  | .vcomp _ => "[object Object]"
  | .vregexp s _ => "/" ++ s ++ "/"
  | .varr es => arrToStr es
termination_by v => (sizeOf v, 0)

/-- `Array.prototype.toString`: elements joined with commas. -/
def arrToStr : List JsVal → String
  | [] => ""
  | [v] => arrElemStr v
  | v :: rest => arrElemStr v ++ "," ++ arrToStr rest
termination_by l => (sizeOf l, 1)

/-- An array element inside `join`: `null` and `undefined` print empty. -/
def arrElemStr : JsVal → String
  | .vnull => ""
  | .vundef => ""
  | v => jsToStr v
termination_by v => (sizeOf v, 2)

end

/-- `new RegExp(p)` (source line 478): a string pattern is used as the
source (the empty pattern prints as `(?:)`); any other argument is
string-coerced first. -/
def newRegExp : JsVal → JsVal
  | .vstr s => .vregexp (if s = "" then "(?:)" else s) []
  | .vregexp s _ => .vregexp s []
  | v => .vregexp (jsToStr v) []

/-- `item instanceof RegExp`. -/
def isRegExp : JsVal → Bool
  | .vregexp _ _ => true
  | _ => false

/-- `AutoEnvParse.applyArray` (source lines 435-487).  Empty arrays are
skipped; for non-`RegExp` arrays positional dot-notation keys take priority
and produce one element per detected index (compacted); otherwise the value
at the whole key is JSON-parsed, replacing the array on success (mapping
through `new RegExp` for pattern arrays); failures only warn. -/
def applyArray (envVarName : String) (current : JsVal) (env : EnvMap) : JsVal :=
  match current with
  | .varr [] => .varr []
  | .varr (t :: ts) =>
    let es := t :: ts
    let isRegExpArray := es.all isRegExp
    let viaJson : JsVal :=
      match envGet env envVarName with
      | some s =>
        if s ≠ "" then
          match jsonParse s with
          | some (.varr parsed) =>
            if isRegExpArray then .varr (parsed.map newRegExp) else .varr parsed
          | some _ => current
          | none => current
        else current
      | none => current
    if ¬ isRegExpArray then
      let indices := detectArrayIndices envVarName env
      if ¬ indices.isEmpty then
        .varr (indices.map fun i =>
          parseArrayElement (envVarName ++ "_" ++ toString i) t env)
      else viaJson
    else viaJson
  | v => v

/-- `typeof parsed === 'object' && parsed !== null`. -/
def isObjectTypeNonNull : JsVal → Bool
  | .vobj _ => true
  | .vcomp _ => true
  | .vregexp _ _ => true
  | .varr _ => true
  | _ => false

/-- Own enumerable properties of a JSON-parsed value, as copied by
`Object.assign` (array indices become string keys). -/
def enumFields : JsVal → Fields
  | .vobj fs => fs
  | .vcomp fs => fs
  | .vregexp _ fs => fs
  | .varr es => es.enum.map fun p => (toString p.1, p.2)
  | _ => []

/-- The shared "try JSON first" step of `applyNestedObject` and
`applyComplexObject` (source lines 518-529 and 562-573): a truthy value at
the whole key is JSON-parsed and, when it is a non-null object,
`Object.assign`-merged; parse failures only warn. -/
def nestedJsonAssign (fs : Fields) (envValue : Option String) : Fields :=
  match envValue with
  | some s =>
    if s ≠ "" then
      match jsonParse s with
      | some p => if isObjectTypeNonNull p then assignFields fs (enumFields p) else fs
      | none => fs
    else fs
  | none => fs

/-- `AutoEnvParse.applyNestedObject` (source lines 500-532): JSON merge
first, then the dot-notation pass (`loadNestedFromEnv`), whose per-field
results take precedence because it runs second.  The source's defensive
throw for non-plain-objects is unreachable from `parseObject` (the caller
dispatches on `isPlainObject`); non-`vobj` inputs are returned unchanged. -/
def applyNestedObject (envVarName : String) (value : JsVal) (env : EnvMap) :
    JsVal :=
  match value with
  | .vobj fs =>
    .vobj (loadNestedFromEnv envVarName
      (nestedJsonAssign fs (envGet env envVarName)) env)
  | v => v

/-- Length of the longest key in the flat map (used only to justify
termination of `applyComplexObject`). -/
def maxKeyLen : EnvMap → Nat
  | [] => 0
  | (k, _) :: rest => max k.length (maxKeyLen rest)

/-- Looking up a key longer than every key of the map fails. -/
theorem envGet_eq_none_of_long (env : EnvMap) (key : String)
    (h : maxKeyLen env < key.length) : envGet env key = none := by
  induction env with
  | nil => rfl
  | cons hd tl ih =>
    obtain ⟨k, v⟩ := hd
    simp only [maxKeyLen, max_lt_iff] at h
    simp only [envGet, ih h.2, ite_eq_right_iff]
    intro hk
    subst hk
    exact absurd rfl (Nat.ne_of_lt h.1)

/-- Remaining room before env keys run out: the recursion of
`applyComplexObject` strictly lengthens its env key, so this quantity
reaches zero, after which no flat-map lookup can succeed. -/
def acvSlack (env : EnvMap) (envKey : String) : Nat :=
  maxKeyLen env + 1 - envKey.length

/-- A member of a field list is structurally smaller than the list. -/
theorem sizeOf_lt_of_mem_fields {fs : Fields} {k : String} {v : JsVal}
    (h : (k, v) ∈ fs) : sizeOf v < sizeOf fs := by
  induction fs with
  | nil => cases h
  | cons hd tl ih =>
    rcases List.mem_cons.1 h with h | h
    · subst h
      simp only [List.cons.sizeOf_spec, Prod.mk.sizeOf_spec]
      omega
    · have := ih h
      simp only [List.cons.sizeOf_spec]
      omega

/-- The own enumerable fields of a composite value. -/
def fieldsOf : JsVal → Fields
  | .vobj fs => fs
  | .vcomp fs => fs
  | .vregexp _ fs => fs
  | _ => []

/-- Replace the fields of a composite value, keeping its identity
(in-place mutation leaves the prototype untouched). -/
def withFields : JsVal → Fields → JsVal
  | .vobj _, fs => .vobj fs
  | .vcomp _, fs => .vcomp fs
  | .vregexp s _, fs => .vregexp s fs
  | v, _ => v

/-- `AutoEnvParse.applyComplexObject` (source lines 546-594): JSON merge at
the whole key, then walk the (merged) own fields, recursing into non-array
objects with the extended key and coercing non-empty env values at leaf
fields (empty string keeps the default).  The source mutates in place; here
the updated value is returned.  The defensive throw for non-objects is
unreachable from `parseObject`.  On the degenerate corner where the child
key is not longer than the parent key (empty field name under an empty
prefix) the source recurses forever; the model keeps the field unchanged
there. -/
def applyComplexObject (env : EnvMap) (envKey : String) (v : JsVal) : JsVal :=
  if hobj : isObjectNonArray v then
    withFields v ((nestedJsonAssign (fieldsOf v) (envGet env envKey)).attach.map
      fun x =>
      if hw : isObjectNonArray x.1.2 then
        if hlt : envKey.length < (if envKey ≠ "" then
            envKey ++ "_" ++ upStr (toSnakeCase x.1.1)
          else upStr (toSnakeCase x.1.1)).length then
          (x.1.1, applyComplexObject env
            (if envKey ≠ "" then envKey ++ "_" ++ upStr (toSnakeCase x.1.1)
             else upStr (toSnakeCase x.1.1)) x.1.2)
        else (x.1.1, x.1.2)
      else
        match envGet env (if envKey ≠ "" then
            envKey ++ "_" ++ upStr (toSnakeCase x.1.1)
          else upStr (toSnakeCase x.1.1)) with
        | some s => (x.1.1, if s ≠ "" then coerceValue s (typeofStr x.1.2) else x.1.2)
        | none => (x.1.1, x.1.2))
  else v
termination_by (acvSlack env envKey, sizeOf v)
decreasing_by
  obtain ⟨⟨k, w⟩, hmem⟩ := x
  dsimp only at *
  by_cases hlen : envKey.length ≤ maxKeyLen env
  · exact Prod.Lex.left _ _ (by simp only [acvSlack]; omega)
  · have hnone : envGet env envKey = none :=
      envGet_eq_none_of_long env envKey (by omega)
    rw [hnone] at hmem
    simp only [nestedJsonAssign] at hmem
    have h1 := sizeOf_lt_of_mem_fields hmem
    have hw2 : sizeOf w < sizeOf v := by
      cases v <;> simp only [isObjectNonArray, Bool.false_eq_true] at hobj <;>
        simp only [fieldsOf, JsVal.vobj.sizeOf_spec, JsVal.vcomp.sizeOf_spec,
          JsVal.vregexp.sizeOf_spec] at h1 ⊢ <;> omega
    refine Prod.lex_def.mpr (Or.inr ⟨?_, hw2⟩)
    simp only [acvSlack]
    omega

/-- The per-field step of `applyComplexObject`, as a plain function
(used to state the characterization lemma below). -/
def acvStep (env : EnvMap) (envKey : String) (kw : String × JsVal) :
    String × JsVal :=
  if isObjectNonArray kw.2 then
    if envKey.length < (if envKey ≠ "" then
        envKey ++ "_" ++ upStr (toSnakeCase kw.1)
      else upStr (toSnakeCase kw.1)).length then
      (kw.1, applyComplexObject env
        (if envKey ≠ "" then envKey ++ "_" ++ upStr (toSnakeCase kw.1)
         else upStr (toSnakeCase kw.1)) kw.2)
    else (kw.1, kw.2)
  else
    match envGet env (if envKey ≠ "" then
        envKey ++ "_" ++ upStr (toSnakeCase kw.1)
      else upStr (toSnakeCase kw.1)) with
    | some s => (kw.1, if s ≠ "" then coerceValue s (typeofStr kw.2) else kw.2)
    | none => (kw.1, kw.2)

/-- `applyComplexObject` on an object-like value is the JSON-assign step
followed by a plain map of `acvStep` over the merged fields. -/
theorem applyComplexObject_eq (env : EnvMap) (envKey : String) (v : JsVal)
    (h : isObjectNonArray v = true) :
    applyComplexObject env envKey v =
      withFields v
        ((nestedJsonAssign (fieldsOf v) (envGet env envKey)).map
          (acvStep env envKey)) := by
  rw [applyComplexObject, dif_pos h]
  congr 1
  simp only [dite_eq_ite]
  exact List.attach_map_coe _ (acvStep env envKey)

/-- `AutoEnvParse.applyPrimitive` (source lines 321-335): presence of the key
(even with an empty-string value) triggers coercion; `null`/`undefined`
current values coerce as strings. -/
def applyPrimitive (env : EnvMap) (envVarName : String) (current : JsVal) :
    JsVal :=
  match envGet env envVarName with
  | some envValue =>
    let valueType :=
      match current with
      | .vnull => "string"
      | .vundef => "string"
      | v => typeofStr v
    coerceValue envValue valueType
  | none => current

/-- The per-field body of the `parseObject` loop (source lines 203-235),
without overrides (none of the verified claims exercise the override
extension slots).  Dispatch: `null`/`undefined` and primitives go to
`applyPrimitive`, arrays to `applyArray`, plain objects to
`applyNestedObject`, other objects to `applyComplexObject`. -/
def parseField (env : EnvMap) (pfx : String) (kv : String × JsVal) :
    String × JsVal :=
  let envVarName := buildEnvVarName pfx kv.1
  match kv.2 with
  | .vnull => (kv.1, applyPrimitive env envVarName .vnull)
  | .vundef => (kv.1, applyPrimitive env envVarName .vundef)
  | .varr es => (kv.1, applyArray envVarName (.varr es) env)
  | .vobj fs => (kv.1, applyNestedObject envVarName (.vobj fs) env)
  | .vcomp fs => (kv.1, applyComplexObject env envVarName (.vcomp fs))
  | .vregexp s fs => (kv.1, applyComplexObject env envVarName (.vregexp s fs))
  | v => (kv.1, applyPrimitive env envVarName v)

/-- The message of the fatal invalid-prefix error (source line 200). -/
def invalidPrefixMsg (pfx : String) : String :=
  "Invalid prefix \"" ++ pfx ++ "\". Use uppercase letters and numbers only."

/-- `AutoEnvParse.parseObject` (source lines 192-236), without overrides:
validate the prefix (a non-empty prefix must match `^[A-Z0-9]+$`, otherwise
a fatal error is thrown before any field is touched), then process every own
enumerable field.  After validation no branch can throw: the defensive
checks in `applyNestedObject`/`applyComplexObject` are unreachable because
the dispatch guarantees their preconditions, and all other failures only
warn. -/
def parseObject (target : JsVal) (pfx : String) (env : EnvMap) :
    Except String JsVal :=
  if pfx ≠ "" ∧ ¬ testPrefixPattern pfx then
    .error (invalidPrefixMsg pfx)
  else
    .ok
      (match target with
      | .vobj fs => .vobj (fs.map (parseField env pfx))
      | .vcomp fs => .vcomp (fs.map (parseField env pfx))
      | t => t)

/-- `AutoEnvParse.loadSources` (source lines 948-993), with each source
already resolved to its contributed key-value map: `'env'` resolves to the
live process environment, a file path to its parsed content when the file
exists, and `none` models a missing or unreadable file (skipped with a
warning).  Sources are merged in reverse array order, each merge
overwriting existing keys, so the first-listed source wins. -/
def loadSources (srcs : List (Option EnvMap)) : EnvMap :=
  srcs.reverse.foldl
    (fun merged src =>
      match src with
      | some m => assignEnv merged m
      | none => merged)
    []

/-- The value an earlier (higher-priority) source gives a key: the first
source in array order that resolved and contains the key. -/
def firstSourceValue (srcs : List (Option EnvMap)) (key : String) :
    Option String :=
  match srcs with
  | [] => none
  | none :: rest => firstSourceValue rest key
  | some m :: rest =>
    match envGet m key with
    | some v => some v
    | none => firstSourceValue rest key

/-- The caller-visible options object of `AutoEnvParse.parse`
(source lines 4-60): only the fields relevant to the verified claims. -/
structure ParseOpts where
  pfx : Option String := none
  sources : Option (List String) := none
deriving DecidableEq

/-- The default sources installed by `parse` (source line 163). -/
def defaultSources : List String := ["env", ".env"]

/-- The state of the caller's `options` argument after `AutoEnvParse.parse`
returns (source lines 158-164): `opts = options || {}` aliases the caller's
object whenever one was provided, and `if (!opts.sources) opts.sources =
['env', '.env']` writes the default into that same object. -/
def optsAfterParse (callerOpts : Option ParseOpts) : Option ParseOpts :=
  callerOpts.map fun o =>
    match o.sources with
    | none => { o with sources := some defaultSources }
    | some _ => o

/-- The value a sequence of `Object.assign`-style writes leaves under a key:
the last write for `k` in `src`, or the previous value. -/
def assignLook (src : Fields) (k : String) (d : Option JsVal) : Option JsVal :=
  src.foldl (fun cur kv => if kv.1 = k then some kv.2 else cur) d

/-- `assignLook` with a mandatory default. -/
def assignVal (src : Fields) (k : String) (d : JsVal) : JsVal :=
  src.foldl (fun cur kv => if kv.1 = k then kv.2 else cur) d

/-- The per-field value produced by the `loadNestedFromEnv` loop
(equal to that loop's effect on each field once the field keys are
deduplicated; see `loadNestedFromEnv_eq_map`). -/
def lnStep (env : EnvMap) (pfx : String) (k : String) (v : JsVal) : JsVal :=
  if isPlainObject v then lnValUpdate env (buildEnvVarName pfx k) v
  else
    match envGet env (buildEnvVarName pfx k) with
    | some s => if s ≠ "" then coerceValue s (typeofStr v) else cloneVal v
    | none => cloneVal v

/-- Key membership in a field list. -/
def keyMemB (k : String) : Fields → Bool
  | [] => false
  | (k2, _) :: rest => k2 = k || keyMemB k rest

mutual

/-- A value is "record-clean" when every plain-record level reachable
without crossing an array has deduplicated keys and contains no class
instances, pattern values, or `undefined`-valued fields.  On such subtrees
the nested-record population pass is well behaved (the JSON clone drops
nothing and nothing is re-classified between passes). -/
def recCleanB : JsVal → Bool
  | .vobj fs => cleanFieldsB fs
  | .vcomp _ => false
  | .vregexp _ _ => false
  | .vundef => false
  | _ => true

/-- `recCleanB` on a field list (with key deduplication). -/
def cleanFieldsB : Fields → Bool
  | [] => true
  | (k, v) :: rest => !keyMemB k rest && recCleanB v && cleanFieldsB rest

end

mutual

/-- Every object level reachable through non-array object values has
deduplicated keys (always true of real JavaScript objects, where keys are
unique by construction). -/
def deepNodupB : JsVal → Bool
  | .vobj fs => nodupFieldsB fs
  | .vcomp fs => nodupFieldsB fs
  | .vregexp _ fs => nodupFieldsB fs
  | _ => true

/-- `deepNodupB` on a field list. -/
def nodupFieldsB : Fields → Bool
  | [] => true
  | (k, v) :: rest => !keyMemB k rest && deepNodupB v && nodupFieldsB rest

end

/-- Shape of a single target field on which the populate pass is idempotent:
anything except an array, with record-clean plain records and deduplicated
composites. -/
def fieldIdemSafeB : JsVal → Bool
  | .varr _ => false
  | .vobj fs => cleanFieldsB fs
  | .vcomp fs => nodupFieldsB fs
  | .vregexp _ fs => nodupFieldsB fs
  | _ => true

/-- Target shape on which the populate pass is idempotent: no array-valued
fields, record-clean plain-record fields, deduplicated composite fields. -/
def idemSafeB : JsVal → Bool
  | .vobj fs => fs.all fun kv => fieldIdemSafeB kv.2
  | .vcomp fs => fs.all fun kv => fieldIdemSafeB kv.2
  | _ => true

/-- Field values outside the four structured dispatch classes of the
`parseObject` loop (array, plain record, composite, pattern): these always
go through `applyPrimitive`. -/
def primB : JsVal → Bool
  | .vobj _ => false
  | .vcomp _ => false
  | .vregexp _ _ => false
  | .varr _ => false
  | _ => true

/-! ### Association-list lemmas -/

theorem getField_setField (l : Fields) (k : String) (v : JsVal) (key : String) :
    getField (setField l k v) key = if k = key then some v else getField l key := by
  induction l with
  | nil =>
    by_cases h : k = key <;> simp [setField, getField, h]
  | cons hd tl ih =>
    obtain ⟨k2, w⟩ := hd
    by_cases h2 : k2 = k
    · subst h2
      by_cases h : k2 = key <;> simp [setField, getField, h]
    · by_cases h : k2 = key
      · subst h
        have hk : ¬ k = k2 := fun he => h2 he.symm
        simp [setField, getField, h2, hk]
      · simp [setField, getField, h2, h, ih]

theorem getField_eq_none_of_not_mem (l : Fields) (key : String)
    (h : key ∉ l.map Prod.fst) : getField l key = none := by
  induction l with
  | nil => rfl
  | cons hd tl ih =>
    obtain ⟨k2, w⟩ := hd
    simp only [List.map_cons, List.mem_cons, not_or] at h
    have hk : ¬ k2 = key := fun he => h.1 he.symm
    simp [getField, hk, ih h.2]

theorem mem_keys_of_getField {l : Fields} {key : String} {v : JsVal}
    (h : getField l key = some v) : key ∈ l.map Prod.fst := by
  induction l with
  | nil => simp [getField] at h
  | cons hd tl ih =>
    obtain ⟨k2, w⟩ := hd
    by_cases h2 : k2 = key
    · simp [h2]
    · simp only [getField, if_neg h2] at h
      simp [ih h]

theorem mem_of_getField {l : Fields} {key : String} {v : JsVal}
    (h : getField l key = some v) : (key, v) ∈ l := by
  induction l with
  | nil => simp [getField] at h
  | cons hd tl ih =>
    obtain ⟨k2, w⟩ := hd
    by_cases h2 : k2 = key
    · subst h2
      simp [getField] at h
      subst h
      exact List.mem_cons_self _ _
    · simp only [getField, if_neg h2] at h
      exact List.mem_cons_of_mem _ (ih h)

theorem getField_of_mem_nodup {l : Fields} {key : String} {v : JsVal}
    (hnd : (l.map Prod.fst).Nodup) (h : (key, v) ∈ l) :
    getField l key = some v := by
  induction l with
  | nil => cases h
  | cons hd tl ih =>
    obtain ⟨k2, w⟩ := hd
    simp only [List.map_cons, List.nodup_cons] at hnd
    rcases List.mem_cons.1 h with h | h
    · cases h
      simp [getField]
    · have hk : ¬ k2 = key := by
        intro he
        subst he
        exact hnd.1 (List.mem_map.2 ⟨_, h, rfl⟩)
      simp [getField, hk, ih hnd.2 h]

theorem getField_assignFields (l : Fields) (src : Fields) (key : String) :
    getField (assignFields l src) key = assignLook src key (getField l key) := by
  induction src generalizing l with
  | nil => rfl
  | cons hd tl ih =>
    obtain ⟨k2, w⟩ := hd
    show getField (assignFields (setField l k2 w) tl) key =
      assignLook tl key (if k2 = key then some w else getField l key)
    rw [ih, getField_setField]

theorem assignLook_of_not_mem (src : Fields) (key : String) (d : Option JsVal)
    (h : key ∉ src.map Prod.fst) : assignLook src key d = d := by
  induction src generalizing d with
  | nil => rfl
  | cons hd tl ih =>
    obtain ⟨k2, w⟩ := hd
    simp only [List.map_cons, List.mem_cons, not_or] at h
    show assignLook tl key (if k2 = key then some w else d) = d
    rw [if_neg (fun he => h.1 he.symm), ih _ h.2]

theorem assignLook_of_getField_nodup {src : Fields} {key : String}
    {v : JsVal} (hnd : (src.map Prod.fst).Nodup)
    (h : getField src key = some v) (d : Option JsVal) :
    assignLook src key d = some v := by
  induction src generalizing d with
  | nil => simp [getField] at h
  | cons hd tl ih =>
    obtain ⟨k2, w⟩ := hd
    simp only [List.map_cons, List.nodup_cons] at hnd
    by_cases h2 : k2 = key
    · subst h2
      simp [getField] at h
      show assignLook tl k2 (if k2 = k2 then some w else d) = some v
      rw [if_pos rfl, h]
      exact assignLook_of_not_mem _ _ _ hnd.1
    · simp only [getField, if_neg h2] at h
      show assignLook tl key (if k2 = key then some w else d) = some v
      rw [if_neg h2]
      exact ih hnd.2 h _

/-! ### Claim C3: lookup-key derivation -/

/-- **C3.** The local lookup-key derivation splits a field identifier at
camelCase boundaries, treats a run of uppercase letters followed by a
lowercase letter as a single segment, joins segments with an underscore and
uppercases the result; in particular `localKey 'poolSize' = 'POOL_SIZE'`,
`localKey 'HTTPSPort' = 'HTTPS_PORT'`, `localKey 'APIKey' = 'API_KEY'` and
`localKey 'host' = 'HOST'`, and `localKey` is the uppercased
`toSnakeCase`. -/
theorem claim_C3 :
    (∀ s, localKey s = upStr (toSnakeCase s))
    ∧ localKey "poolSize" = "POOL_SIZE"
    ∧ localKey "HTTPSPort" = "HTTPS_PORT"
    ∧ localKey "APIKey" = "API_KEY"
    ∧ localKey "host" = "HOST" :=
  ⟨fun _ => rfl, rfl, rfl, rfl, rfl⟩

/-! ### Claim C10: `parse` mutates the caller's options -/

/-- **C10.** `AutoEnvParse.parse` mutates the caller's `options` argument:
when the caller supplies an options object without a `sources` field, the
default `['env', '.env']` is written into that same object, so after the
call `options.sources` is set. -/
theorem claim_C10 (o : ParseOpts) (h : o.sources = none) :
    optsAfterParse (some o) = some { o with sources := some defaultSources } := by
  simp [optsAfterParse, h]

/-- Witness for C10 at a concrete options record. -/
theorem claim_C10_witness :
    optsAfterParse (some { pfx := some "DB", sources := none }) =
      some { pfx := some "DB", sources := some ["env", ".env"] } :=
  claim_C10 { pfx := some "DB", sources := none } rfl

/-! ### Claim C6: prefix validation -/

/-- **C6.** A populate call with a non-empty prefix that does not match
`^[A-Z0-9]+$` fails with the fatal error naming the offending prefix, for
every target and flat map alike (the check runs before any field is
processed, so no field of the target is touched); with an empty or matching
prefix no error is raised. -/
theorem claim_C6 (p : String) (target : JsVal) (env : EnvMap) :
    (p ≠ "" → testPrefixPattern p = false →
      parseObject target p env = .error (invalidPrefixMsg p)
        ∧ ∃ pre post, (invalidPrefixMsg p).data = pre ++ p.data ++ post)
    ∧ ((p = "" ∨ testPrefixPattern p = true) →
      ∃ r, parseObject target p env = .ok r) := by
  constructor
  · intro hne hbad
    constructor
    · simp [parseObject, hne, hbad]
    · exact ⟨("Invalid prefix \"").data,
        ("\". Use uppercase letters and numbers only.").data,
        by simp [invalidPrefixMsg]⟩
  · intro h
    have hcond : ¬ (p ≠ "" ∧ ¬ testPrefixPattern p = true) := by
      rcases h with h | h
      · simp [h]
      · simp [h]
    refine ⟨match target with
      | .vobj fs => .vobj (fs.map (parseField env p))
      | .vcomp fs => .vcomp (fs.map (parseField env p))
      | t => t, ?_⟩
    simp only [parseObject, if_neg hcond]

/-- Witness for C6: the prefix `db-1` is rejected with the error naming it,
while the prefix `DB` and the empty prefix are accepted. -/
theorem claim_C6_witness :
    (parseObject (.vobj [("h", .vstr "x")]) "db-1" []
        = .error (invalidPrefixMsg "db-1")
      ∧ ∃ pre post, (invalidPrefixMsg "db-1").data = pre ++ "db-1".data ++ post)
    ∧ (∃ r, parseObject (.vobj [("h", .vstr "x")]) "DB" [] = .ok r)
    ∧ (∃ r, parseObject (.vobj [("h", .vstr "x")]) "" [] = .ok r) :=
  ⟨(claim_C6 "db-1" (.vobj [("h", .vstr "x")]) []).1 (by decide) (by rfl),
   (claim_C6 "DB" (.vobj [("h", .vstr "x")]) []).2 (Or.inr (by rfl)),
   (claim_C6 "" (.vobj [("h", .vstr "x")]) []).2 (Or.inl rfl)⟩

/-! ### Claim C4: source merge priority -/

theorem envGet_setKey (l : EnvMap) (k v key : String) :
    envGet (setKey l k v) key = if k = key then some v else envGet l key := by
  induction l with
  | nil =>
    by_cases h : k = key <;> simp [setKey, envGet, h]
  | cons hd tl ih =>
    obtain ⟨k2, w⟩ := hd
    by_cases h2 : k2 = k
    · subst h2
      by_cases h : k2 = key <;> simp [setKey, envGet, h]
    · by_cases h : k2 = key
      · subst h
        have hk : ¬ k = k2 := fun he => h2 he.symm
        simp [setKey, envGet, h2, hk]
      · simp [setKey, envGet, h2, h, ih]

theorem envGet_eq_none_of_not_mem (l : EnvMap) (key : String)
    (h : key ∉ l.map Prod.fst) : envGet l key = none := by
  induction l with
  | nil => rfl
  | cons hd tl ih =>
    obtain ⟨k2, w⟩ := hd
    simp only [List.map_cons, List.mem_cons, not_or] at h
    have hk : ¬ k2 = key := fun he => h.1 he.symm
    simp [envGet, hk, ih h.2]

theorem envGet_assignEnv (acc m : EnvMap) (key : String)
    (hnd : (m.map Prod.fst).Nodup) :
    envGet (assignEnv acc m) key =
      match envGet m key with
      | some v => some v
      | none => envGet acc key := by
  induction m generalizing acc with
  | nil => rfl
  | cons hd tl ih =>
    obtain ⟨k2, w⟩ := hd
    simp only [List.map_cons, List.nodup_cons] at hnd
    show envGet (assignEnv (setKey acc k2 w) tl) key = _
    rw [ih _ hnd.2]
    by_cases h2 : k2 = key
    · subst h2
      have : envGet tl k2 = none :=
        envGet_eq_none_of_not_mem _ _ hnd.1
      simp [envGet, this, envGet_setKey]
    · cases h : envGet tl key <;> simp [envGet, h2, envGet_setKey, h]

theorem loadSources_cons (s : Option EnvMap) (rest : List (Option EnvMap)) :
    loadSources (s :: rest) =
      match s with
      | some m => assignEnv (loadSources rest) m
      | none => loadSources rest := by
  cases s <;> simp [loadSources, List.foldl_append]

/-- **C4.** After merging the `sources` array, the first entry has the
highest precedence: sources are iterated in reverse array order and each
merge overwrites existing keys, so the value of every key in the merged map
is the value given by the earliest listed (resolved) source containing that
key — a source merged later (listed earlier) never leaves a conflicting key
of a source merged earlier (listed later) intact. -/
theorem claim_C4 (srcs : List (Option EnvMap))
    (hnd : ∀ m : EnvMap, some m ∈ srcs → (m.map Prod.fst).Nodup)
    (key : String) :
    envGet (loadSources srcs) key = firstSourceValue srcs key := by
  induction srcs with
  | nil => rfl
  | cons s rest ih =>
    have ihr := ih (fun m hm => hnd m (List.mem_cons_of_mem _ hm))
    rw [loadSources_cons]
    cases s with
    | none => simpa [firstSourceValue] using ihr
    | some m =>
      have hm : (m.map Prod.fst).Nodup := hnd m (List.mem_cons_self _ _)
      rw [envGet_assignEnv _ _ _ hm]
      simp only [firstSourceValue]
      cases envGet m key <;> simp [ihr]

/-- Witness for C4: with sources `[{A=1}, {A=2, B=3}, missing]` the merged
map gives `A=1` (first source wins) and `B=3`. -/
theorem claim_C4_witness :
    (envGet (loadSources [some [("A", "1")], some [("A", "2"), ("B", "3")], none]) "A"
        = firstSourceValue [some [("A", "1")], some [("A", "2"), ("B", "3")], none] "A"
      ∧ envGet (loadSources [some [("A", "1")], some [("A", "2"), ("B", "3")], none]) "B"
        = firstSourceValue [some [("A", "1")], some [("A", "2"), ("B", "3")], none] "B")
    ∧ firstSourceValue [some [("A", "1")], some [("A", "2"), ("B", "3")], none] "A" = some "1"
    ∧ firstSourceValue [some [("A", "1")], some [("A", "2"), ("B", "3")], none] "B" = some "3" := by
  refine ⟨⟨claim_C4 _ ?_ "A", claim_C4 _ ?_ "B"⟩, rfl, rfl⟩ <;>
    · intro m hm
      simp only [List.mem_cons, List.not_mem_nil, or_false,
        Option.some.injEq, reduceCtorEq] at hm
      rcases hm with rfl | rfl <;> decide

/-! ### Claim C5: empty-string semantics -/

theorem lnUpdates_keys_subset (env : EnvMap) (pfx : String) (d : Fields)
    (x : String) (h : x ∈ (lnUpdates env pfx d).map Prod.fst) :
    x ∈ d.map Prod.fst := by
  induction d with
  | nil => simpa [lnUpdates] using h
  | cons hd tl ih =>
    obtain ⟨k2, w⟩ := hd
    simp only [lnUpdates] at h
    by_cases hp : isPlainObject w
    · rw [if_pos hp] at h
      simp only [List.map_cons, List.mem_cons] at h ⊢
      rcases h with h | h
      · exact Or.inl h
      · exact Or.inr (ih h)
    · rw [if_neg hp] at h
      simp only [List.map_cons, List.mem_cons]
      rcases he : envGet env (buildEnvVarName pfx k2) with _ | s
      · simp only [he] at h
        exact Or.inr (ih h)
      · simp only [he] at h
        by_cases hs : s = ""
        · simp only [hs, ne_eq, not_true_eq_false, if_false] at h
          exact Or.inr (ih h)
        · simp only [ne_eq, hs, not_false_eq_true, if_true,
            List.map_cons, List.mem_cons] at h
          rcases h with h | h
          · exact Or.inl h
          · exact Or.inr (ih h)

theorem lnUpdates_key_not_mem {env : EnvMap} {pfx : String} {d : Fields}
    {k : String} {v : JsVal} (hnd : (d.map Prod.fst).Nodup)
    (hget : getField d k = some v) (hp : isPlainObject v = false)
    (hs : envGet env (buildEnvVarName pfx k) = some "") :
    k ∉ (lnUpdates env pfx d).map Prod.fst := by
  induction d with
  | nil => simp [getField] at hget
  | cons hd tl ih =>
    obtain ⟨k2, w⟩ := hd
    simp only [List.map_cons, List.nodup_cons] at hnd
    by_cases h2 : k2 = k
    · subst h2
      simp [getField] at hget
      subst hget
      simp only [lnUpdates, hp, Bool.false_eq_true, if_false, hs]
      simp only [ne_eq, not_true_eq_false, if_false]
      intro hmem
      exact hnd.1 (lnUpdates_keys_subset _ _ _ _ hmem)
    · simp only [getField, if_neg h2] at hget
      have ihk := ih hnd.2 hget
      simp only [lnUpdates]
      by_cases hpw : isPlainObject w
      · rw [if_pos hpw]
        simp only [List.map_cons, List.mem_cons, not_or]
        exact ⟨fun he => h2 he.symm, ihk⟩
      · rw [if_neg hpw]
        rcases he : envGet env (buildEnvVarName pfx k2) with _ | s
        · simp only [he]
          exact ihk
        · simp only [he]
          by_cases hss : s = ""
          · simp only [hss, ne_eq, not_true_eq_false, if_false]
            exact ihk
          · simp only [ne_eq, hss, not_false_eq_true, if_true,
              List.map_cons, List.mem_cons, not_or]
            exact ⟨fun he => h2 he.symm, ihk⟩

theorem getField_cloneFields {d : Fields} {k : String} {v : JsVal}
    (hget : getField d k = some v) (hu : v ≠ .vundef) :
    getField (cloneFields d) k = some (cloneVal v) := by
  induction d with
  | nil => simp [getField] at hget
  | cons hd tl ih =>
    obtain ⟨k2, w⟩ := hd
    by_cases h2 : k2 = k
    · subst h2
      simp [getField] at hget
      subst hget
      cases w <;> simp_all [cloneFields, getField]
    · simp only [getField, if_neg h2] at hget
      cases w with
      | vundef => simpa [cloneFields] using ih hget
      | vstr s => simpa [cloneFields, getField, h2] using ih hget
      | vint n => simpa [cloneFields, getField, h2] using ih hget
      | vnan => simpa [cloneFields, getField, h2] using ih hget
      | vbool b => simpa [cloneFields, getField, h2] using ih hget
      | vnull => simpa [cloneFields, getField, h2] using ih hget
      | vobj fs => simpa [cloneFields, getField, h2] using ih hget
      | vcomp fs => simpa [cloneFields, getField, h2] using ih hget
      | varr es => simpa [cloneFields, getField, h2] using ih hget
      | vregexp s fs => simpa [cloneFields, getField, h2] using ih hget

/-- **C5.** An empty-string value in the flat map is treated as absent on
the nested-record path (`loadNestedFromEnv`) and on the array-element
primitive path (`parseObjectPropertiesRecursive`) — the field keeps its
(cloned) current value — while on the top-level primitive path
(`applyPrimitive`) mere presence of the key triggers coercion and
assignment, so a string-typed top-level field is assigned the raw value,
which for an empty string is the empty string. -/
theorem claim_C5 :
    (∀ (pfx : String) (d : Fields) (env : EnvMap) (k : String) (v : JsVal),
      (d.map Prod.fst).Nodup → getField d k = some v →
      isPlainObject v = false → cloneVal v = v →
      envGet env (buildEnvVarName pfx k) = some "" →
      getField (loadNestedFromEnv pfx d env) k = some v)
    ∧ (∀ (env : EnvMap) (envVarName : String) (tpl : JsVal) (fs : Fields)
        (k : String) (v : JsVal),
      getField fs k = some v →
      isObjectNonArray (tplGet tpl k) = false →
      envGet env (envVarName ++ "_" ++ upStr (toSnakeCase k)) = some "" →
      getField (parseOPRfields env envVarName tpl fs) k = some v)
    ∧ (∀ (env : EnvMap) (name : String) (t s : String),
      envGet env name = some s →
      applyPrimitive env name (.vstr t) = .vstr s) := by
  refine ⟨?_, ?_, ?_⟩
  · intro pfx d env k v hnd hget hp hcl hs
    have hu : v ≠ .vundef := by
      intro he
      subst he
      simp [cloneVal] at hcl
    have hnm := lnUpdates_key_not_mem hnd hget hp hs
    rw [loadNestedFromEnv, getField_assignFields,
      assignLook_of_not_mem _ _ _ hnm, getField_cloneFields hget hu, hcl]
  · intro env envVarName tpl fs k v hget htv hs
    induction fs with
    | nil => simp [getField] at hget
    | cons hd tl ih =>
      obtain ⟨k2, w⟩ := hd
      by_cases h2 : k2 = k
      · subst h2
        simp [getField] at hget
        subst hget
        simp only [parseOPRfields]
        rw [if_neg (show ¬ isObjectNonArray (tplGet tpl k2) = true by simp [htv]),
          hs]
        simp [getField]
      · simp only [getField, if_neg h2] at hget
        have ihh := ih hget
        simp only [parseOPRfields]
        by_cases hk : isObjectNonArray (tplGet tpl k2)
        · rw [if_pos hk]
          simpa [getField, h2] using ihh
        · rw [if_neg hk]
          rcases he : envGet env (envVarName ++ "_" ++ upStr (toSnakeCase k2)) with _ | s2
          · simpa [getField, h2] using ihh
          · by_cases hs2 : s2 = ""
            · subst hs2
              simpa [getField, h2] using ihh
            · dsimp only
              rw [if_pos hs2]
              simpa [getField, h2] using ihh
  · intro env name t s hs
    simp [applyPrimitive, hs, typeofStr, coerceValue]

/-- Witness for C5: a nested-record field and an array-element field keep
their values under an empty-string env value, while a top-level string
field is assigned the empty string. -/
theorem claim_C5_witness :
    getField (loadNestedFromEnv "NESTED" [("a", .vstr "keep")] [("NESTED_A", "")]) "a"
        = some (.vstr "keep")
    ∧ getField (parseOPRfields [("X_ITEMS_0_NAME", "")] "X_ITEMS_0"
        (.vobj [("name", .vstr "tmpl")]) [("name", .vstr "cloned")]) "name"
        = some (.vstr "cloned")
    ∧ applyPrimitive [("S", "")] "S" (.vstr "x") = .vstr "" :=
  ⟨claim_C5.1 "NESTED" [("a", .vstr "keep")] [("NESTED_A", "")] "a" (.vstr "keep")
      (by decide) rfl rfl rfl rfl,
   claim_C5.2.1 [("X_ITEMS_0_NAME", "")] "X_ITEMS_0" (.vobj [("name", .vstr "tmpl")])
      [("name", .vstr "cloned")] "name" (.vstr "cloned") rfl rfl rfl,
   claim_C5.2.2 [("S", "")] "S" "x" "" rfl⟩

/-! ### Claim C1: dot-notation beats the structured string -/

theorem getField_lnUpdates_coerce {env : EnvMap} {pfx : String} {d : Fields}
    {k s : String} {w : JsVal} (hnd : (d.map Prod.fst).Nodup)
    (hget : getField d k = some w) (hp : isPlainObject w = false)
    (hs : envGet env (buildEnvVarName pfx k) = some s) (hne : s ≠ "") :
    getField (lnUpdates env pfx d) k = some (coerceValue s (typeofStr w)) := by
  induction d with
  | nil => simp [getField] at hget
  | cons hd tl ih =>
    obtain ⟨k2, v2⟩ := hd
    simp only [List.map_cons, List.nodup_cons] at hnd
    by_cases h2 : k2 = k
    · subst h2
      simp [getField] at hget
      subst hget
      simp only [lnUpdates, hp, Bool.false_eq_true, if_false, hs]
      rw [if_pos hne]
      simp [getField]
    · simp only [getField, if_neg h2] at hget
      have ihh := ih hnd.2 hget
      simp only [lnUpdates]
      by_cases hpw : isPlainObject v2
      · rw [if_pos hpw]
        simpa [getField, h2] using ihh
      · rw [if_neg hpw]
        rcases he : envGet env (buildEnvVarName pfx k2) with _ | s2
        · simpa [getField, h2] using ihh
        · by_cases hs2 : s2 = ""
          · subst hs2
            simpa [getField, h2] using ihh
          · dsimp only
            rw [if_pos hs2]
            simpa [getField, h2] using ihh

theorem lnUpdates_keys_nodup (env : EnvMap) (pfx : String) (d : Fields)
    (hnd : (d.map Prod.fst).Nodup) :
    ((lnUpdates env pfx d).map Prod.fst).Nodup := by
  induction d with
  | nil => simp [lnUpdates]
  | cons hd tl ih =>
    obtain ⟨k2, v2⟩ := hd
    simp only [List.map_cons, List.nodup_cons] at hnd
    have ihh := ih hnd.2
    have hhead : k2 ∉ (lnUpdates env pfx tl).map Prod.fst := fun hm =>
      hnd.1 (lnUpdates_keys_subset _ _ _ _ hm)
    simp only [lnUpdates]
    by_cases hpw : isPlainObject v2
    · rw [if_pos hpw]
      simp only [List.map_cons]
      exact List.nodup_cons.mpr ⟨hhead, ihh⟩
    · rw [if_neg hpw]
      rcases he : envGet env (buildEnvVarName pfx k2) with _ | s2
      · exact ihh
      · by_cases hs2 : s2 = ""
        · subst hs2
          simpa using ihh
        · dsimp only
          rw [if_pos hs2]
          simp only [List.map_cons]
          exact List.nodup_cons.mpr ⟨hhead, ihh⟩

/-- **C1.** For a plain-record field, the structured-string (JSON) value at
the field's key is shallow-merged first and the per-field dot-notation pass
runs second and overwrites: whatever value the merge left at a leaf field,
a non-empty dot-notation value at the derived child key wins (coerced by
the type of the merged value).  In particular, with flat map
`{X_NESTED: '{"a":"json"}', X_NESTED_A: 'dot'}` and template
`{nested: {a: 'default'}}` the result is `{nested: {a: 'dot'}}`. -/
theorem claim_C1 :
    (∀ (envKey : String) (fs : Fields) (env : EnvMap) (a s : String) (w : JsVal),
      ((nestedJsonAssign fs (envGet env envKey)).map Prod.fst).Nodup →
      getField (nestedJsonAssign fs (envGet env envKey)) a = some w →
      isPlainObject w = false →
      envGet env (buildEnvVarName envKey a) = some s → s ≠ "" →
      getField (fieldsOf (applyNestedObject envKey (.vobj fs) env)) a
        = some (coerceValue s (typeofStr w)))
    ∧ parseObject (.vobj [("nested", .vobj [("a", .vstr "default")])]) "X"
        [("X_NESTED", "\x7b\"a\":\"json\"\x7d"), ("X_NESTED_A", "dot")]
      = .ok (.vobj [("nested", .vobj [("a", .vstr "dot")])]) := by
  constructor
  · intro envKey fs env a s w hnd hget hp hs hne
    show getField (loadNestedFromEnv envKey
      (nestedJsonAssign fs (envGet env envKey)) env) a = _
    rw [loadNestedFromEnv, getField_assignFields,
      assignLook_of_getField_nodup (lnUpdates_keys_nodup _ _ _ hnd)
        (getField_lnUpdates_coerce hnd hget hp hs hne) _]
  · rfl

/-- Witness for C1: the general dot-notation-wins statement applied to the
concrete scenario (the merged value at `a` is the JSON-provided string, and
the dot-notation value `dot` overwrites it). -/
theorem claim_C1_witness :
    getField (fieldsOf (applyNestedObject "X_NESTED"
        (.vobj [("a", .vstr "default")])
        [("X_NESTED", "\x7b\"a\":\"json\"\x7d"), ("X_NESTED_A", "dot")])) "a"
      = some (coerceValue "dot" (typeofStr (.vstr "json"))) :=
  claim_C1.1 "X_NESTED" [("a", .vstr "default")]
    [("X_NESTED", "\x7b\"a\":\"json\"\x7d"), ("X_NESTED_A", "dot")]
    "a" "dot" (.vstr "json") (by decide) rfl rfl rfl (by decide)

/-! ### Claim C2: positional indices are sorted and compacted -/

theorem insertAsc_eq (n : Nat) (l : List Nat) :
    insertAsc n l = List.orderedInsert (· ≤ ·) n l := by
  induction l with
  | nil => rfl
  | cons m rest ih => simp [insertAsc, List.orderedInsert, ih]

theorem sortNats_eq (l : List Nat) :
    sortNats l = List.insertionSort (· ≤ ·) l := by
  induction l with
  | nil => rfl
  | cons n rest ih => simp [sortNats, List.insertionSort, insertAsc_eq, ih]

theorem sortNats_sorted (l : List Nat) : (sortNats l).Sorted (· ≤ ·) := by
  rw [sortNats_eq]
  exact List.sorted_insertionSort _ l

theorem sortNats_perm (l : List Nat) : List.Perm (sortNats l) l := by
  rw [sortNats_eq]
  exact List.perm_insertionSort _ l

theorem dedupFirst_nodup (l : List Nat) : (dedupFirst l).Nodup := by
  induction l with
  | nil => exact List.nodup_nil
  | cons n rest ih =>
    refine List.nodup_cons.mpr ⟨?_, ih.filter _⟩
    intro hmem
    have := List.of_mem_filter hmem
    simp at this

/-- **C2.** For a non-empty array-of-records field with positional keys
present, the distinct indices found are sorted strictly ascending, and the
resulting array is compacted: exactly one element per distinct index in
ascending order, each built by `parseArrayElement` from the array's first
element at the key `name_index`; with template `{items: [{id: 0, name: ''}]}`
and keys `X_ITEMS_0_ID=10, X_ITEMS_0_NAME=a, X_ITEMS_5_ID=50,
X_ITEMS_5_NAME=b` the result has length 2:
`[{id: 10, name: 'a'}, {id: 50, name: 'b'}]`. -/
theorem claim_C2 :
    (∀ (name : String) (env : EnvMap),
      (detectArrayIndices name env).Pairwise (· < ·))
    ∧ (∀ (name : String) (t : JsVal) (ts : List JsVal) (env : EnvMap),
      (t :: ts).all isRegExp = false →
      detectArrayIndices name env ≠ [] →
      applyArray name (.varr (t :: ts)) env
        = .varr ((detectArrayIndices name env).map fun i =>
            parseArrayElement (name ++ "_" ++ toString i) t env))
    ∧ parseObject (.vobj [("items", .varr [.vobj [("id", .vint 0), ("name", .vstr "")]])]) "X"
        [("X_ITEMS_0_ID", "10"), ("X_ITEMS_0_NAME", "a"),
         ("X_ITEMS_5_ID", "50"), ("X_ITEMS_5_NAME", "b")]
      = .ok (.vobj [("items", .varr
          [.vobj [("id", .vint 10), ("name", .vstr "a")],
           .vobj [("id", .vint 50), ("name", .vstr "b")]])]) := by
  refine ⟨?_, ?_, rfl⟩
  · intro name env
    have hsorted : (detectArrayIndices name env).Sorted (· ≤ ·) :=
      sortNats_sorted _
    have hnodup : (detectArrayIndices name env).Nodup :=
      (sortNats_perm _).nodup_iff.2 (dedupFirst_nodup _)
    exact (hsorted.and hnodup).imp fun h => lt_of_le_of_ne h.1 h.2
  · intro name t ts env hreg hne
    simp only [applyArray, hreg, Bool.false_eq_true, not_false_eq_true,
      if_true, ne_eq, ← List.isEmpty_iff, hne]
    simp [hne]

/-- Witness for C2's general parts at the sparse-array scenario (indices
`[0, 5]`, strictly ascending, two compacted elements). -/
theorem claim_C2_witness :
    (detectArrayIndices "X_ITEMS"
        [("X_ITEMS_0_ID", "10"), ("X_ITEMS_0_NAME", "a"),
         ("X_ITEMS_5_ID", "50"), ("X_ITEMS_5_NAME", "b")]).Pairwise (· < ·)
    ∧ applyArray "X_ITEMS"
        (.varr [.vobj [("id", .vint 0), ("name", .vstr "")]])
        [("X_ITEMS_0_ID", "10"), ("X_ITEMS_0_NAME", "a"),
         ("X_ITEMS_5_ID", "50"), ("X_ITEMS_5_NAME", "b")]
      = .varr ((detectArrayIndices "X_ITEMS"
          [("X_ITEMS_0_ID", "10"), ("X_ITEMS_0_NAME", "a"),
           ("X_ITEMS_5_ID", "50"), ("X_ITEMS_5_NAME", "b")]).map fun i =>
            parseArrayElement ("X_ITEMS" ++ "_" ++ toString i)
              (.vobj [("id", .vint 0), ("name", .vstr "")])
              [("X_ITEMS_0_ID", "10"), ("X_ITEMS_0_NAME", "a"),
               ("X_ITEMS_5_ID", "50"), ("X_ITEMS_5_NAME", "b")]) :=
  ⟨claim_C2.1 "X_ITEMS" _,
   claim_C2.2.1 "X_ITEMS" (.vobj [("id", .vint 0), ("name", .vstr "")]) [] _
     rfl (by decide)⟩

/-! ### Claim C7: pattern arrays only honor the whole-key structured string -/

/-- **C7.** For a non-empty array all of whose elements are
regular-expression values, positional index keys are never consulted: the
result depends only on the flat map's value at the whole key, and when that
value JSON-parses to an array the array is replaced by its entries converted
through `new RegExp`. -/
theorem claim_C7 :
    (∀ (name : String) (t : JsVal) (ts : List JsVal) (env1 env2 : EnvMap),
      (t :: ts).all isRegExp = true →
      envGet env1 name = envGet env2 name →
      applyArray name (.varr (t :: ts)) env1
        = applyArray name (.varr (t :: ts)) env2)
    ∧ (∀ (name : String) (t : JsVal) (ts : List JsVal) (env : EnvMap)
        (s : String) (ps : List JsVal),
      (t :: ts).all isRegExp = true →
      envGet env name = some s → s ≠ "" →
      jsonParse s = some (.varr ps) →
      applyArray name (.varr (t :: ts)) env = .varr (ps.map newRegExp)) := by
  constructor
  · intro name t ts env1 env2 hreg hagree
    simp only [applyArray, hreg, not_true_eq_false, if_false, hagree]
  · intro name t ts env s ps hreg hs hne hp
    simp only [applyArray, hreg, not_true_eq_false, if_false, hs]
    rw [if_pos hne, hp]
    simp [hreg]

/-- Witness for C7: a pattern array ignores positional keys (two flat maps
agreeing at the whole key give the same result) and a JSON array of pattern
sources replaces it. -/
theorem claim_C7_witness :
    applyArray "PATS" (.varr [.vregexp "old" []])
        [("PATS", "[\"^foo\",\"bar$\"]"), ("PATS_0_X", "zz")]
      = applyArray "PATS" (.varr [.vregexp "old" []])
        [("PATS", "[\"^foo\",\"bar$\"]")]
    ∧ applyArray "PATS" (.varr [.vregexp "old" []])
        [("PATS", "[\"^foo\",\"bar$\"]")]
      = .varr ([JsVal.vstr "^foo", JsVal.vstr "bar$"].map newRegExp) :=
  ⟨claim_C7.1 "PATS" (.vregexp "old" []) [] _ _ rfl rfl,
   claim_C7.2 "PATS" (.vregexp "old" []) [] _ "[\"^foo\",\"bar$\"]"
     [JsVal.vstr "^foo", JsVal.vstr "bar$"] rfl rfl (by decide) rfl⟩

/-! ### Claim C9: default preservation -/

theorem upStr_append (a b : String) : upStr (a ++ b) = upStr a ++ upStr b := by
  apply String.ext
  simp [upStr, String.data_append]

theorem strAppend_regroup (a b c : String) : a ++ b ++ c = a ++ (b ++ c) := by
  apply String.ext
  simp [String.data_append]

theorem upStr_data_append_prefix (a b : String) :
    (upStr a).data <+: (upStr (a ++ b)).data := by
  rw [upStr_append, String.data_append]
  exact List.prefix_append _ _

theorem setField_self {l : Fields} {k : String} {u : JsVal}
    (h : getField l k = some u) : setField l k u = l := by
  induction l with
  | nil => simp [getField] at h
  | cons hd tl ih =>
    obtain ⟨k2, w⟩ := hd
    by_cases h2 : k2 = k
    · subst h2
      simp [getField] at h
      simp [setField, h]
    · simp only [getField, if_neg h2] at h
      simp [setField, h2, ih h]

theorem assignFields_identity {l : Fields} {ups : Fields}
    (h : ∀ x ∈ ups, getField l x.1 = some x.2) : assignFields l ups = l := by
  induction ups with
  | nil => rfl
  | cons hd tl ih =>
    show assignFields (setField l hd.1 hd.2) tl = l
    rw [setField_self (h hd (List.mem_cons_self _ _))]
    exact ih fun x hx => h x (List.mem_cons_of_mem _ hx)

theorem cloneFields_length_le (fs : Fields) :
    (cloneFields fs).length ≤ fs.length := by
  induction fs with
  | nil => simp [cloneFields]
  | cons hd tl ih =>
    obtain ⟨k, v⟩ := hd
    cases v <;> simp [cloneFields] <;> omega

theorem cloneFields_fixpoint {fs : Fields} (h : cloneFields fs = fs) :
    ∀ kv ∈ fs, kv.2 ≠ .vundef ∧ cloneVal kv.2 = kv.2 := by
  induction fs with
  | nil => intro kv hkv; cases hkv
  | cons hd tl ih =>
    obtain ⟨k, v⟩ := hd
    intro kv hkv
    by_cases hu : v = .vundef
    · subst hu
      exfalso
      simp only [cloneFields] at h
      have h1 := cloneFields_length_le tl
      have h2 := congrArg List.length h
      simp at h2
      omega
    · have hcons : (k, cloneVal v) :: cloneFields tl = (k, v) :: tl := by
        cases v <;> simp_all [cloneFields]
      injection hcons with h1 htl
      injection h1 with _ hv
      rcases List.mem_cons.1 hkv with hkv | hkv
      · subst hkv
        exact ⟨hu, hv⟩
      · exact ih htl kv hkv

theorem keyMemB_iff (k : String) (fs : Fields) :
    keyMemB k fs = true ↔ k ∈ fs.map Prod.fst := by
  induction fs with
  | nil => simp [keyMemB]
  | cons hd tl ih =>
    obtain ⟨k2, w⟩ := hd
    simp only [keyMemB, Bool.or_eq_true, decide_eq_true_eq, ih,
      List.map_cons, List.mem_cons]
    exact ⟨fun h => h.imp Eq.symm id, fun h => h.imp Eq.symm id⟩

theorem cloneFields_fixpoint_tail {k : String} {v : JsVal} {tl : Fields}
    (h : cloneFields ((k, v) :: tl) = (k, v) :: tl) : cloneFields tl = tl := by
  by_cases hu : v = .vundef
  · subst hu
    exfalso
    simp only [cloneFields] at h
    have h1 := cloneFields_length_le tl
    have h2 := congrArg List.length h
    simp at h2
    omega
  · have hcons : (k, cloneVal v) :: cloneFields tl = (k, v) :: tl := by
      cases v <;> simp_all [cloneFields]
    injection hcons with _ htl

theorem nodupFieldsB_nodup {fs : Fields} (h : nodupFieldsB fs = true) :
    (fs.map Prod.fst).Nodup := by
  induction fs with
  | nil => simp
  | cons hd tl ih =>
    obtain ⟨k2, w⟩ := hd
    simp only [nodupFieldsB, Bool.and_eq_true, Bool.not_eq_true'] at h
    refine List.nodup_cons.mpr ⟨fun hm => ?_, ih h.2⟩
    rw [← keyMemB_iff] at hm
    simp [hm] at h

theorem nodupFieldsB_mem {fs : Fields} (h : nodupFieldsB fs = true) :
    ∀ kv ∈ fs, deepNodupB kv.2 = true := by
  induction fs with
  | nil => intro kv hkv; cases hkv
  | cons hd tl ih =>
    obtain ⟨k2, w⟩ := hd
    simp only [nodupFieldsB, Bool.and_eq_true] at h
    intro kv hkv
    rcases List.mem_cons.1 hkv with hkv | hkv
    · subst hkv
      exact h.1.2
    · exact ih h.2 kv hkv

/-- No flat-map key (case-insensitively) extends `name` with an
underscore. -/
def NoExtendingKeys (env : EnvMap) (name : String) : Prop :=
  ∀ kv ∈ env, ¬ (upStr (name ++ "_")).data <+: (upStr kv.1).data

instance (env : EnvMap) (name : String) : Decidable (NoExtendingKeys env name) :=
  List.decidableBAll _ env

theorem envGet_none_of_noExtending {env : EnvMap} {name : String}
    (h : NoExtendingKeys env name) (q : String)
    (hq : (upStr (name ++ "_")).data <+: (upStr q).data) :
    envGet env q = none := by
  induction env with
  | nil => rfl
  | cons hd tl ih =>
    obtain ⟨k2, w⟩ := hd
    have h2 : ¬ k2 = q := by
      intro he
      subst he
      exact h (k2, w) (List.mem_cons_self _ _) hq
    simp only [envGet, if_neg h2]
    exact ih fun kv hkv => h kv (List.mem_cons_of_mem _ hkv)

theorem noExtending_child {env : EnvMap} {name : String}
    (h : NoExtendingKeys env name) (hne : name ≠ "") (sk : String) :
    NoExtendingKeys env (name ++ "_" ++ sk) := by
  intro kv hkv hpre
  refine h kv hkv (List.IsPrefix.trans ?_ hpre)
  rw [show name ++ "_" ++ sk ++ "_" = (name ++ "_") ++ (sk ++ "_") by
    rw [strAppend_regroup (name ++ "_") sk "_"]]
  exact upStr_data_append_prefix _ _

theorem buildEnvVarName_of_ne (name k : String) (hne : name ≠ "") :
    buildEnvVarName name k = name ++ "_" ++ upStr (toSnakeCase k) := by
  simp [buildEnvVarName, hne]

theorem envGet_buildEnvVarName_none {env : EnvMap} {name : String}
    (h : NoExtendingKeys env name) (hne : name ≠ "") (k : String) :
    envGet env (buildEnvVarName name k) = none := by
  refine envGet_none_of_noExtending h _ ?_
  rw [buildEnvVarName_of_ne _ _ hne,
    strAppend_regroup name "_" (upStr (toSnakeCase k)),
    ← strAppend_regroup name "_" (upStr (toSnakeCase k))]
  rw [show name ++ "_" ++ upStr (toSnakeCase k)
      = (name ++ "_") ++ upStr (toSnakeCase k) from
    strAppend_regroup name "_" (upStr (toSnakeCase k)) ▸ rfl]
  exact upStr_data_append_prefix _ _

/-- With no flat-map key at or below a nonempty prefix, the nested
dot-notation pass returns the (clone-stable, key-deduplicated) default
unchanged. -/
theorem loadNestedFromEnv_identity :
    ∀ (n : Nat) (fs : Fields), sizeOf fs ≤ n → ∀ (name : String) (env : EnvMap),
    name ≠ "" → NoExtendingKeys env name →
    cloneFields fs = fs → nodupFieldsB fs = true →
    loadNestedFromEnv name fs env = fs := by
  intro n
  induction n with
  | zero =>
    intro fs hle
    exfalso
    have : 0 < sizeOf fs := by cases fs <;> simp_all <;> omega
    omega
  | succ n ih =>
    intro fs hle name env hne hnone hclone hnd
    rw [loadNestedFromEnv, hclone]
    refine assignFields_identity ?_
    have hmem : ∀ gs : Fields, sizeOf gs ≤ sizeOf fs →
        cloneFields gs = gs → nodupFieldsB gs = true →
        (∀ kv ∈ gs, kv ∈ fs) →
        ∀ x ∈ lnUpdates env name gs, x ∈ fs := by
      intro gs
      induction gs with
      | nil =>
        intro _ _ _ _ x hx
        cases hx
      | cons hd tl iht =>
        intro hsz hcl hnd2 hsub x hx
        obtain ⟨k2, v2⟩ := hd
        have hfix := cloneFields_fixpoint hcl
        have hv2 := hfix (k2, v2) (List.mem_cons_self _ _)
        have hcltl : cloneFields tl = tl := cloneFields_fixpoint_tail hcl
        have hndtl : nodupFieldsB tl = true := by
          simp only [nodupFieldsB, Bool.and_eq_true] at hnd2
          exact hnd2.2
        have hsztl : sizeOf tl ≤ sizeOf fs := by
          simp only [List.cons.sizeOf_spec] at hsz
          omega
        have hsubtl : ∀ kv ∈ tl, kv ∈ fs :=
          fun kv hkv => hsub kv (List.mem_cons_of_mem _ hkv)
        simp only [lnUpdates] at hx
        by_cases hpw : isPlainObject v2
        · rw [if_pos hpw] at hx
          obtain ⟨inner, rfl⟩ : ∃ inner, v2 = .vobj inner := by
            cases v2 <;> simp_all [isPlainObject]
          have hinner_clone : cloneFields inner = inner := by
            have hcv := hv2.2
            simp only [cloneVal] at hcv
            injection hcv
          have hinner_nd : nodupFieldsB inner = true := by
            simp only [nodupFieldsB, Bool.and_eq_true, deepNodupB] at hnd2
            exact hnd2.1.2
          have hinner_sz : sizeOf inner ≤ n := by
            simp only [List.cons.sizeOf_spec, Prod.mk.sizeOf_spec,
              JsVal.vobj.sizeOf_spec] at hsz
            omega
          have hname2 : name ++ "_" ++ upStr (toSnakeCase k2) ≠ "" := by
            intro habs
            have hd := congrArg String.data habs
            simp [String.data_append] at hd
          have hid : loadNestedFromEnv (buildEnvVarName name k2) inner env = inner := by
            rw [buildEnvVarName_of_ne _ _ hne]
            exact ih inner hinner_sz _ env hname2
              (noExtending_child hnone hne _) hinner_clone hinner_nd
          rcases List.mem_cons.1 hx with hx | hx
          · subst hx
            have : lnValUpdate env (buildEnvVarName name k2) (.vobj inner)
                = .vobj inner := by
              show JsVal.vobj (assignFields (cloneFields inner)
                (lnUpdates env (buildEnvVarName name k2) inner)) = _
              rw [show assignFields (cloneFields inner)
                  (lnUpdates env (buildEnvVarName name k2) inner)
                = loadNestedFromEnv (buildEnvVarName name k2) inner env from rfl,
                hid]
            rw [this]
            exact hsub (k2, .vobj inner) (List.mem_cons_self _ _)
          · exact iht hsztl hcltl hndtl hsubtl x hx
        · rw [if_neg hpw] at hx
          rw [envGet_buildEnvVarName_none hnone hne k2] at hx
          exact iht hsztl hcltl hndtl hsubtl x hx
    intro x hx
    have hxin : x ∈ fs := hmem fs (le_refl _) hclone hnd (fun _ h => h) x hx
    exact getField_of_mem_nodup (nodupFieldsB_nodup hnd) hxin

theorem append_underscore_ne (a b : String) : a ++ "_" ++ b ≠ "" := by
  intro h
  have hd := congrArg String.data h
  simp [String.data_append] at hd

theorem withFields_fieldsOf {v : JsVal} (hobj : isObjectNonArray v = true) :
    withFields v (fieldsOf v) = v := by
  cases v <;> simp_all [isObjectNonArray, withFields, fieldsOf]

theorem sizeOf_field_lt_of_objectLike {v : JsVal}
    (hobj : isObjectNonArray v = true) {k : String} {w : JsVal}
    (hm : (k, w) ∈ fieldsOf v) : sizeOf w < sizeOf v := by
  have h1 := sizeOf_lt_of_mem_fields hm
  cases v <;> simp only [isObjectNonArray, Bool.false_eq_true] at hobj <;>
    simp only [fieldsOf, JsVal.vobj.sizeOf_spec, JsVal.vcomp.sizeOf_spec,
      JsVal.vregexp.sizeOf_spec] at h1 ⊢ <;> omega

/-- With no flat-map key at or below a nonempty env key, the composite
walk returns the value unchanged. -/
theorem applyComplexObject_identity (env : EnvMap) (envKey : String)
    (v : JsVal) (hne : envKey ≠ "") (hself : envGet env envKey = none)
    (hnone : NoExtendingKeys env envKey) :
    applyComplexObject env envKey v = v := by
  by_cases hobj : isObjectNonArray v
  · rw [applyComplexObject_eq env envKey v hobj, hself]
    simp only [nestedJsonAssign]
    have hmap : ∀ l : Fields, (∀ kv ∈ l, sizeOf kv.2 < sizeOf v) →
        l.map (acvStep env envKey) = l := by
      intro l
      induction l with
      | nil => intro _; rfl
      | cons hd tl iht =>
        intro hsz
        obtain ⟨k, w⟩ := hd
        have hw : sizeOf w < sizeOf v := hsz (k, w) (List.mem_cons_self _ _)
        have hstep : acvStep env envKey (k, w) = (k, w) := by
          simp only [acvStep]
          by_cases hwobj : isObjectNonArray w
          · rw [if_pos hwobj]
            by_cases hlt : envKey.length < (if envKey ≠ "" then
                envKey ++ "_" ++ upStr (toSnakeCase k)
              else upStr (toSnakeCase k)).length
            · rw [if_pos hlt]
              rw [if_pos hne] at hlt ⊢
              rw [applyComplexObject_identity env
                (envKey ++ "_" ++ upStr (toSnakeCase k)) w
                (append_underscore_ne _ _)
                (by
                  have := envGet_buildEnvVarName_none hnone hne k
                  rwa [buildEnvVarName_of_ne _ _ hne] at this)
                (noExtending_child hnone hne _)]
            · rw [if_neg hlt]
          · rw [if_neg hwobj]
            have hn : envGet env (if envKey ≠ "" then
                envKey ++ "_" ++ upStr (toSnakeCase k)
              else upStr (toSnakeCase k)) = none := by
              rw [if_pos hne]
              have := envGet_buildEnvVarName_none hnone hne k
              rwa [buildEnvVarName_of_ne _ _ hne] at this
            rw [hn]
        rw [List.map_cons, hstep,
          iht fun kv hkv => hsz kv (List.mem_cons_of_mem _ hkv)]
    rw [hmap (fieldsOf v) fun kv hkv => by
      obtain ⟨k2, w2⟩ := kv
      exact sizeOf_field_lt_of_objectLike hobj hkv]
    exact withFields_fieldsOf hobj
  · rw [applyComplexObject, dif_neg hobj]
termination_by (acvSlack env envKey, sizeOf v)
decreasing_by
  have hlen : envKey.length < (envKey ++ "_" ++ upStr (toSnakeCase k)).length := by
    simpa [hne] using hlt
  by_cases hcase : acvSlack env (envKey ++ "_" ++ upStr (toSnakeCase k))
      < acvSlack env envKey
  · exact Prod.Lex.left _ _ hcase
  · have heq : acvSlack env (envKey ++ "_" ++ upStr (toSnakeCase k))
        = acvSlack env envKey := by
      simp only [acvSlack] at hcase ⊢
      omega
    exact Prod.lex_def.mpr (Or.inr ⟨heq, hw⟩)

theorem parseField_fst (env : EnvMap) (pfx : String) (kv : String × JsVal) :
    (parseField env pfx kv).1 = kv.1 := by
  obtain ⟨k, v⟩ := kv
  cases v <;> rfl

theorem getField_map_parseField {env : EnvMap} {pfx : String} {fs : Fields}
    {k : String} {v : JsVal} (hget : getField fs k = some v) :
    getField (fs.map (parseField env pfx)) k
      = some (parseField env pfx (k, v)).2 := by
  induction fs with
  | nil => simp [getField] at hget
  | cons hd tl ih =>
    obtain ⟨k2, w⟩ := hd
    rw [List.map_cons]
    rcases hp : parseField env pfx (k2, w) with ⟨ka, va⟩
    have hf : ka = k2 := by
      have h := parseField_fst env pfx (k2, w)
      rw [hp] at h
      exact h
    subst hf
    by_cases h2 : ka = k
    · subst h2
      have hwv : w = v := by simpa [getField] using hget
      subst hwv
      show (if ka = ka then some va
        else getField (tl.map (parseField env pfx)) ka)
        = some (parseField env pfx (ka, w)).2
      rw [if_pos rfl, hp]
    · simp only [getField, if_neg h2] at hget
      show (if ka = k then some va
        else getField (tl.map (parseField env pfx)) k)
        = some (parseField env pfx (k, v)).2
      rw [if_neg h2]
      exact ih hget

theorem matchIndexKey_extends {name key : String} {i : Nat}
    (h : matchIndexKey name key = some i) :
    (upStr (name ++ "_")).data <+: (upStr key).data := by
  simp only [matchIndexKey] at h
  by_cases hp : ((upStr name).data ++ ['_']).isPrefixOf (upStr key).data
  · have hpre : (upStr name).data ++ ['_'] <+: (upStr key).data :=
      List.isPrefixOf_iff_prefix.1 hp
    have hdata : (upStr (name ++ "_")).data = (upStr name).data ++ ['_'] := by
      rw [upStr_append]
      rfl
    rw [hdata]
    exact hpre
  · rw [if_neg hp] at h
    cases h

theorem detectArrayIndices_nil {env : EnvMap} {name : String}
    (h : NoExtendingKeys env name) : detectArrayIndices name env = [] := by
  have hfm : env.filterMap (fun kv => matchIndexKey name kv.1) = [] := by
    rw [List.filterMap_eq_nil]
    intro kv hkv
    rcases hm : matchIndexKey name kv.1 with _ | i
    · rfl
    · exact absurd (matchIndexKey_extends hm) (h kv hkv)
  rw [detectArrayIndices, hfm]
  rfl

theorem applyArray_identity {env : EnvMap} {name : String} {es : List JsVal}
    (hself : envGet env name = none)
    (hdet : detectArrayIndices name env = []) :
    applyArray name (.varr es) env = .varr es := by
  cases es with
  | nil => rfl
  | cons t ts =>
    simp only [applyArray, hself, hdet]
    split <;> rfl

/-- **C9 counterexample.** The claim fails as stated: with target
`{nested: {a: 'd'}}` and flat map `{NESTED_A: 'x'}` the derived fullKey
`NESTED` of the field `nested` is absent from the flat map, yet populate
changes the field (to `{a: 'x'}`) via its dot-notation child key. -/
theorem claim_C9_counterexample :
    parseObject (.vobj [("nested", .vobj [("a", .vstr "d")])]) "" [("NESTED_A", "x")]
      = .ok (.vobj [("nested", .vobj [("a", .vstr "x")])])
    ∧ envGet [("NESTED_A", "x")] (buildEnvVarName "" "nested") = none
    ∧ JsVal.vobj [("a", JsVal.vstr "x")] ≠ JsVal.vobj [("a", JsVal.vstr "d")] := by
  refine ⟨rfl, rfl, ?_⟩
  simp

/-- **C9 (amended).** Default preservation holds per field under the
conditions the counterexample forces: if the field's derived fullKey is
absent from the flat map, no flat-map key (case-insensitively) extends the
fullKey with an underscore (so there are no dot-notation or positional
descendants), and — for plain-record fields — the value is stable under the
JSON clone (no `undefined`-valued or class/pattern sub-fields) with
deduplicated keys, then the field's value after populate equals its value
before. -/
theorem claim_C9_amended (pfx : String) (env : EnvMap) (fs : Fields)
    (k : String) (v : JsVal)
    (hok : ¬ (pfx ≠ "" ∧ ¬ testPrefixPattern pfx = true))
    (hget : getField fs k = some v)
    (hname : buildEnvVarName pfx k ≠ "")
    (h1 : envGet env (buildEnvVarName pfx k) = none)
    (h2 : NoExtendingKeys env (buildEnvVarName pfx k))
    (h3 : ∀ ifs, v = .vobj ifs → cloneFields ifs = ifs ∧ nodupFieldsB ifs = true) :
    ∃ fs2, parseObject (.vobj fs) pfx env = .ok (.vobj fs2)
      ∧ getField fs2 k = some v := by
  refine ⟨fs.map (parseField env pfx),
    by simp only [parseObject]; rw [if_neg hok], ?_⟩
  rw [getField_map_parseField hget]
  have hid : (parseField env pfx (k, v)).2 = v := by
    cases v with
    | vnull => simp [parseField, applyPrimitive, h1]
    | vundef => simp [parseField, applyPrimitive, h1]
    | vstr s => simp [parseField, applyPrimitive, h1]
    | vint n => simp [parseField, applyPrimitive, h1]
    | vnan => simp [parseField, applyPrimitive, h1]
    | vbool b => simp [parseField, applyPrimitive, h1]
    | varr es =>
      show applyArray (buildEnvVarName pfx k) (.varr es) env = .varr es
      exact applyArray_identity h1 (detectArrayIndices_nil h2)
    | vobj ifs =>
      show applyNestedObject (buildEnvVarName pfx k) (.vobj ifs) env = .vobj ifs
      obtain ⟨hcl, hnd⟩ := h3 ifs rfl
      simp only [applyNestedObject, h1, nestedJsonAssign]
      rw [loadNestedFromEnv_identity (sizeOf ifs) ifs (le_refl _) _ env
        hname h2 hcl hnd]
    | vcomp cfs =>
      show applyComplexObject env (buildEnvVarName pfx k) (.vcomp cfs) = .vcomp cfs
      exact applyComplexObject_identity env _ _ hname h1 h2
    | vregexp src rfs =>
      show applyComplexObject env (buildEnvVarName pfx k) (.vregexp src rfs)
        = .vregexp src rfs
      exact applyComplexObject_identity env _ _ hname h1 h2
  rw [hid]

/-- Witness for the amended C9: a record field, an array field and a
composite field all keep their values when the flat map has no key at or
below their fullKeys. -/
theorem claim_C9_amended_witness :
    (∃ fs2, parseObject (.vobj [("nested", .vobj [("a", .vstr "d")])]) ""
        [("OTHER", "zzz")] = .ok (.vobj fs2)
      ∧ getField fs2 "nested" = some (.vobj [("a", .vstr "d")]))
    ∧ (∃ fs2, parseObject (.vobj [("items", .varr [.vobj [("id", .vint 0)]])]) ""
        [("OTHER", "zzz")] = .ok (.vobj fs2)
      ∧ getField fs2 "items" = some (.varr [.vobj [("id", .vint 0)]])) := by
  constructor
  · exact claim_C9_amended "" [("OTHER", "zzz")] _ "nested" _
      (by decide) rfl (by decide) rfl (by decide)
      (fun ifs he => by cases he; exact ⟨rfl, rfl⟩)
  · exact claim_C9_amended "" [("OTHER", "zzz")] _ "items" _
      (by decide) rfl (by decide) rfl (by decide)
      (fun ifs he => by cases he)

/-! ### Idempotence of coercion and cloning (claim C8 support) -/

theorem parseNumber_shape (s : String) :
    (∃ n : Int, parseNumber s = .vint n) ∨ parseNumber s = .vnan := by
  unfold parseNumber
  dsimp only
  split <;> split <;> first
    | exact Or.inl ⟨_, rfl⟩
    | exact Or.inr rfl

theorem typeof_parseNumber (s : String) : typeofStr (parseNumber s) = "number" := by
  rcases parseNumber_shape s with ⟨n, hn⟩ | hn <;> rw [hn] <;> rfl

theorem coerce_fix (s t : String) :
    coerceValue s (typeofStr (coerceValue s t)) = coerceValue s t := by
  unfold coerceValue
  by_cases hb : t = "boolean"
  · simp [hb, typeofStr]
  · by_cases hn : t = "number"
    · simp only [if_neg hb, if_pos hn]
      rw [typeof_parseNumber]
      simp
    · simp [hb, hn, typeofStr]

theorem coerce_primB (s t : String) : primB (coerceValue s t) = true := by
  unfold coerceValue
  by_cases hb : t = "boolean"
  · simp [hb, primB]
  · by_cases hn : t = "number"
    · simp only [if_neg hb, if_pos hn]
      rcases parseNumber_shape s with ⟨n, hn2⟩ | hn2 <;> rw [hn2] <;> rfl
    · simp [hb, hn, primB]

theorem coerce_ne_undef (s t : String) : coerceValue s t ≠ .vundef := by
  unfold coerceValue
  by_cases hb : t = "boolean"
  · simp [hb]
  · by_cases hn : t = "number"
    · simp only [if_neg hb, if_pos hn]
      rcases parseNumber_shape s with ⟨n, hn2⟩ | hn2 <;> rw [hn2] <;> simp
    · simp [hb, hn]

theorem coerce_ne_null (s t : String) : coerceValue s t ≠ .vnull := by
  unfold coerceValue
  by_cases hb : t = "boolean"
  · simp [hb]
  · by_cases hn : t = "number"
    · simp only [if_neg hb, if_pos hn]
      rcases parseNumber_shape s with ⟨n, hn2⟩ | hn2 <;> rw [hn2] <;> simp
    · simp [hb, hn]

theorem cloneVal_ne_undef (v : JsVal) : cloneVal v ≠ .vundef := by
  cases v <;> simp [cloneVal]

theorem cloneFields_cons {k : String} {v : JsVal} {rest : Fields}
    (h : v ≠ .vundef) :
    cloneFields ((k, v) :: rest) = (k, cloneVal v) :: cloneFields rest := by
  cases v <;> first | rfl | exact absurd rfl h

theorem clone_idem_aux : ∀ n : Nat,
    (∀ v : JsVal, sizeOf v ≤ n → cloneVal (cloneVal v) = cloneVal v) ∧
    (∀ fs : Fields, sizeOf fs ≤ n → cloneFields (cloneFields fs) = cloneFields fs) ∧
    (∀ es : List JsVal, sizeOf es ≤ n → cloneList (cloneList es) = cloneList es) := by
  intro n
  induction n using Nat.strong_induction_on with
  | _ n ih =>
    refine ⟨?_, ?_, ?_⟩
    · intro v hv
      cases v with
      | vobj fs =>
        have hfs : sizeOf fs < n := by
          have := JsVal.vobj.sizeOf_spec fs
          omega
        simp only [cloneVal]
        rw [(ih _ hfs).2.1 fs le_rfl]
      | vcomp fs =>
        have hfs : sizeOf fs < n := by
          have := JsVal.vcomp.sizeOf_spec fs
          omega
        simp only [cloneVal]
        rw [(ih _ hfs).2.1 fs le_rfl]
      | vregexp s fs =>
        have hfs : sizeOf fs < n := by
          have := JsVal.vregexp.sizeOf_spec s fs
          omega
        simp only [cloneVal]
        rw [(ih _ hfs).2.1 fs le_rfl]
      | varr es =>
        have hes : sizeOf es < n := by
          have := JsVal.varr.sizeOf_spec es
          omega
        simp only [cloneVal]
        rw [(ih _ hes).2.2 es le_rfl]
      | _ => rfl
    · intro fs hfs
      cases fs with
      | nil => rfl
      | cons hd tl =>
        obtain ⟨k, v⟩ := hd
        have hsz : sizeOf ((k, v) :: tl) = 1 + (1 + sizeOf k + sizeOf v) + sizeOf tl := by
          simp
        have hv : sizeOf v < n := by omega
        have htl : sizeOf tl < n := by omega
        by_cases hu : v = .vundef
        · subst hu
          simp only [cloneFields]
          exact (ih _ htl).2.1 tl le_rfl
        · rw [cloneFields_cons hu, cloneFields_cons (cloneVal_ne_undef v),
            (ih _ hv).1 v le_rfl, (ih _ htl).2.1 tl le_rfl]
    · intro es hes
      cases es with
      | nil => rfl
      | cons e tl =>
        have hsz : sizeOf (e :: tl) = 1 + sizeOf e + sizeOf tl := by simp
        have he : sizeOf e < n := by omega
        have htl : sizeOf tl < n := by omega
        simp only [cloneList]
        rw [(ih _ he).1 e le_rfl, (ih _ htl).2.2 tl le_rfl]

theorem cloneVal_idem (v : JsVal) : cloneVal (cloneVal v) = cloneVal v :=
  (clone_idem_aux (sizeOf v)).1 v le_rfl

theorem cloneFields_idem (fs : Fields) :
    cloneFields (cloneFields fs) = cloneFields fs :=
  (clone_idem_aux (sizeOf fs)).2.1 fs le_rfl

theorem valueType_coerce (s t : String) :
    (match coerceValue s t with
      | .vnull => "string" | .vundef => "string" | w => typeofStr w)
      = typeofStr (coerceValue s t) := by
  rcases hc : coerceValue s t with _ | _ | _ | _ | _ | _ | _ | _ | _ | _
  · rfl
  · rfl
  · rfl
  · rfl
  · exact absurd hc (coerce_ne_null s t)
  · exact absurd hc (coerce_ne_undef s t)
  · rfl
  · rfl
  · rfl
  · rfl

theorem applyPrimitive_fix (env : EnvMap) (name : String) (v : JsVal) :
    applyPrimitive env name (applyPrimitive env name v) = applyPrimitive env name v := by
  rcases he : envGet env name with _ | s
  · simp [applyPrimitive, he]
  · have h1 : ∀ w : JsVal, applyPrimitive env name w
        = coerceValue s (match w with
          | .vnull => "string" | .vundef => "string" | w => typeofStr w) := by
      intro w
      simp only [applyPrimitive, he]
    rw [h1, h1, valueType_coerce, coerce_fix]

theorem parseField_of_primB {v : JsVal} (h : primB v = true) (env : EnvMap)
    (pfx k : String) :
    parseField env pfx (k, v) = (k, applyPrimitive env (buildEnvVarName pfx k) v) := by
  cases v <;> first | rfl | simp [primB] at h

theorem primB_applyPrimitive {env : EnvMap} {name : String} {v : JsVal}
    (h : primB v = true) : primB (applyPrimitive env name v) = true := by
  rcases he : envGet env name with _ | s
  · simpa [applyPrimitive, he] using h
  · simp only [applyPrimitive, he]
    exact coerce_primB s _

theorem parseField_prim_idem {v : JsVal} (h : primB v = true) (env : EnvMap)
    (pfx k : String) :
    parseField env pfx (parseField env pfx (k, v)) = parseField env pfx (k, v) := by
  rw [parseField_of_primB h, parseField_of_primB (primB_applyPrimitive h),
    applyPrimitive_fix]

/-! ### Assignment-list lemmas (claim C8 support) -/

theorem assignVal_cons (k2 : String) (u : JsVal) (tl : Fields) (k : String)
    (d : JsVal) :
    assignVal ((k2, u) :: tl) k d = assignVal tl k (if k2 = k then u else d) := rfl

theorem assignVal_of_not_mem {src : Fields} {k : String}
    (h : k ∉ src.map Prod.fst) (d : JsVal) : assignVal src k d = d := by
  induction src generalizing d with
  | nil => rfl
  | cons hd tl ih =>
    obtain ⟨k2, u⟩ := hd
    simp only [List.map_cons, List.mem_cons, not_or] at h
    rw [assignVal_cons, if_neg (fun he => h.1 he.symm), ih h.2]

theorem assignVal_mem {src : Fields} {k : String}
    (h : k ∈ src.map Prod.fst) (d : JsVal) : (k, assignVal src k d) ∈ src := by
  induction src generalizing d with
  | nil => cases h
  | cons hd tl ih =>
    obtain ⟨k2, u⟩ := hd
    by_cases hm : k ∈ tl.map Prod.fst
    · exact List.mem_cons_of_mem _ (ih hm _)
    · have hk : k2 = k := by
        simp only [List.map_cons, List.mem_cons] at h
        rcases h with h | h
        · exact h.symm
        · exact absurd h hm
      rw [assignVal_cons, if_pos hk, assignVal_of_not_mem hm]
      subst hk
      exact List.mem_cons_self _ _

theorem assignLook_cons (k2 : String) (u : JsVal) (tl : Fields) (k : String)
    (d : Option JsVal) :
    assignLook ((k2, u) :: tl) k d
      = assignLook tl k (if k2 = k then some u else d) := rfl

theorem assignLook_eq_assignVal {src : Fields} {k : String}
    (h : k ∈ src.map Prod.fst) (d : Option JsVal) (dv : JsVal) :
    assignLook src k d = some (assignVal src k dv) := by
  induction src generalizing d dv with
  | nil => cases h
  | cons hd tl ih =>
    obtain ⟨k2, u⟩ := hd
    rw [assignLook_cons, assignVal_cons]
    by_cases hm : k ∈ tl.map Prod.fst
    · exact ih hm _ _
    · have hk : k2 = k := by
        simp only [List.map_cons, List.mem_cons] at h
        rcases h with h | h
        · exact h.symm
        · exact absurd h hm
      rw [if_pos hk, if_pos hk, assignLook_of_not_mem _ _ _ hm,
        assignVal_of_not_mem hm]

theorem keys_setField (l : Fields) (k : String) (v : JsVal) :
    (setField l k v).map Prod.fst
      = if k ∈ l.map Prod.fst then l.map Prod.fst else l.map Prod.fst ++ [k] := by
  induction l with
  | nil => simp [setField]
  | cons hd tl ih =>
    obtain ⟨k2, w⟩ := hd
    by_cases hk : k2 = k
    · subst hk
      simp [setField]
    · have hne : k2 ≠ k := hk
      simp only [setField, if_neg hk, List.map_cons, ih]
      by_cases hm : k ∈ tl.map Prod.fst
      · rw [if_pos hm, if_pos (List.mem_cons_of_mem _ hm)]
      · rw [if_neg hm, if_neg (by
          simp only [List.mem_cons]
          rintro (h | h)
          · exact hne h.symm
          · exact hm h)]
        rfl

theorem keys_assignFields_nodup {l : Fields} (src : Fields)
    (hnd : (l.map Prod.fst).Nodup) :
    ((assignFields l src).map Prod.fst).Nodup := by
  induction src generalizing l with
  | nil => exact hnd
  | cons hd tl ih =>
    obtain ⟨k2, u⟩ := hd
    show ((assignFields (setField l k2 u) tl).map Prod.fst).Nodup
    refine ih ?_
    rw [keys_setField]
    by_cases hm : k2 ∈ l.map Prod.fst
    · rwa [if_pos hm]
    · rw [if_neg hm]
      simp [List.nodup_append, hnd, hm]

theorem keys_assignFields_eq {l : Fields} (src : Fields)
    (hsub : ∀ x ∈ src.map Prod.fst, x ∈ l.map Prod.fst) :
    (assignFields l src).map Prod.fst = l.map Prod.fst := by
  induction src generalizing l with
  | nil => rfl
  | cons hd tl ih =>
    obtain ⟨k2, u⟩ := hd
    show (assignFields (setField l k2 u) tl).map Prod.fst = l.map Prod.fst
    have hm : k2 ∈ l.map Prod.fst := hsub k2 (by simp)
    have hkeys : (setField l k2 u).map Prod.fst = l.map Prod.fst := by
      rw [keys_setField, if_pos hm]
    rw [ih fun x hx => by rw [hkeys]; exact hsub x (List.mem_cons_of_mem _ hx), hkeys]

theorem mem_keys_assignFields_src {l src : Fields} {k : String}
    (h : k ∈ src.map Prod.fst) : k ∈ (assignFields l src).map Prod.fst := by
  refine mem_keys_of_getField (v := assignVal src k .vnull) ?_
  rw [getField_assignFields]
  exact assignLook_eq_assignVal h _ _

theorem assignFields_cons_of_not_mem {src : Fields} {k : String}
    (l : Fields) (w : JsVal) (h : k ∉ src.map Prod.fst) :
    assignFields ((k, w) :: l) src = (k, w) :: assignFields l src := by
  induction src generalizing l with
  | nil => rfl
  | cons hd tl ih =>
    obtain ⟨k2, u⟩ := hd
    simp only [List.map_cons, List.mem_cons, not_or] at h
    show assignFields (setField ((k, w) :: l) k2 u) tl = (k, w) :: assignFields (setField l k2 u) tl
    rw [show setField ((k, w) :: l) k2 u = (k, w) :: setField l k2 u by
      simp only [setField, if_neg h.1]]
    exact ih _ h.2

theorem map_if_not_mem {l : Fields} {k : String} (u : JsVal)
    (h : k ∉ l.map Prod.fst) :
    (l.map fun kv => if kv.1 = k then (kv.1, u) else kv) = l := by
  induction l with
  | nil => rfl
  | cons hd tl ih =>
    obtain ⟨k2, w⟩ := hd
    simp only [List.map_cons, List.mem_cons, not_or] at h
    have hne : ¬ k2 = k := fun he => h.1 he.symm
    simp only [List.map_cons, if_neg hne, ih h.2]

theorem setField_eq_map {l : Fields} {k : String} (u : JsVal)
    (hnd : (l.map Prod.fst).Nodup) (hm : k ∈ l.map Prod.fst) :
    setField l k u = l.map fun kv => if kv.1 = k then (kv.1, u) else kv := by
  induction l with
  | nil => cases hm
  | cons hd tl ih =>
    obtain ⟨k2, w⟩ := hd
    simp only [List.map_cons, List.nodup_cons] at hnd
    by_cases hk : k2 = k
    · subst hk
      simp only [setField, List.map_cons, eq_self_iff_true, if_true]
      rw [map_if_not_mem _ hnd.1]
    · have hm2 : k ∈ tl.map Prod.fst := by
        simp only [List.map_cons, List.mem_cons] at hm
        rcases hm with hm | hm
        · exact absurd hm.symm hk
        · exact hm
      simp only [setField, if_neg hk, List.map_cons, if_neg hk, ih hnd.2 hm2]

theorem assignFields_map_of_subset {l src : Fields}
    (hnd : (l.map Prod.fst).Nodup)
    (hsub : ∀ x ∈ src.map Prod.fst, x ∈ l.map Prod.fst) :
    assignFields l src = l.map fun kv => (kv.1, assignVal src kv.1 kv.2) := by
  induction src generalizing l with
  | nil =>
    show l = _
    simp [assignVal]
  | cons hd tl ih =>
    obtain ⟨k2, u⟩ := hd
    have hm : k2 ∈ l.map Prod.fst := hsub k2 (by simp)
    have hkeys : (setField l k2 u).map Prod.fst = l.map Prod.fst := by
      rw [keys_setField, if_pos hm]
    show assignFields (setField l k2 u) tl = _
    rw [ih (by rwa [hkeys]) fun x hx => by
      rw [hkeys]; exact hsub x (List.mem_cons_of_mem _ hx)]
    rw [setField_eq_map u hnd hm, List.map_map]
    refine List.map_congr_left fun kv hkv => ?_
    obtain ⟨ka, va⟩ := kv
    simp only [Function.comp_apply]
    by_cases hk : ka = k2
    · subst hk
      simp only [assignVal_cons, eq_self_iff_true, if_true]
    · have hk2 : ¬ k2 = ka := fun he => hk he.symm
      simp only [if_neg hk, assignVal_cons, if_neg hk2]

theorem cloneFields_eq_map {B : Fields} (h : ∀ kv ∈ B, kv.2 ≠ JsVal.vundef) :
    cloneFields B = B.map fun kv => (kv.1, cloneVal kv.2) := by
  induction B with
  | nil => rfl
  | cons hd tl ih =>
    obtain ⟨k, v⟩ := hd
    have hv : v ≠ JsVal.vundef := h (k, v) (List.mem_cons_self _ _)
    rw [cloneFields_cons hv, List.map_cons,
      ih fun kv hkv => h kv (List.mem_cons_of_mem _ hkv)]

theorem keys_map_of_fst {f : String × JsVal → String × JsVal}
    (hf : ∀ kv, (f kv).1 = kv.1) (l : Fields) :
    (l.map f).map Prod.fst = l.map Prod.fst := by
  rw [List.map_map]
  exact List.map_congr_left fun kv _ => hf kv

/-! ### `JSON.parse` output carries no `undefined` (claim C8 support) -/

theorem snd_mem_of_mem_enumFrom {α : Type} : ∀ {l : List α} {n : Nat} {p : Nat × α},
    p ∈ l.enumFrom n → p.2 ∈ l := by
  intro l
  induction l with
  | nil => intro n p h; cases h
  | cons x xs ih =>
    intro n p h
    rw [List.enumFrom_cons] at h
    rcases List.mem_cons.1 h with h | h
    · subst h; exact List.mem_cons_self _ _
    · exact List.mem_cons_of_mem _ (ih h)

theorem snd_mem_of_mem_enum {α : Type} {l : List α} {p : Nat × α}
    (h : p ∈ l.enum) : p.2 ∈ l := snd_mem_of_mem_enumFrom h

theorem jsonNum_shape {l : List Char} {v : JsVal} {rem : List Char}
    (h : jsonNum l = some (v, rem)) : ∃ n : Int, v = .vint n := by
  unfold jsonNum at h
  dsimp only at h
  split at h <;> replace h := h.symm
  · split at h
    · cases h
    · split at h
      · cases h
      · cases h
      · cases h
      · rw [Option.some.injEq, Prod.mk.injEq] at h
        obtain ⟨h1, h2⟩ := h
        first
          | exact ⟨_, h1⟩
          | exact ⟨_, h1.symm⟩
  · split at h
    · cases h
    · split at h
      · cases h
      · cases h
      · cases h
      · rw [Option.some.injEq, Prod.mk.injEq] at h
        obtain ⟨h1, h2⟩ := h
        first
          | exact ⟨_, h1⟩
          | exact ⟨_, h1.symm⟩

theorem setField_forall {P : JsVal → Prop} {acc : Fields} {key : String} {v : JsVal}
    (hacc : ∀ kv ∈ acc, P kv.2) (hv : P v) :
    ∀ kv ∈ setField acc key v, P kv.2 := by
  induction acc with
  | nil =>
    intro kv h
    rcases List.mem_singleton.1 h with rfl
    exact hv
  | cons hd tl ih =>
    obtain ⟨k2, w⟩ := hd
    intro kv h
    by_cases hk : k2 = key
    · simp only [setField, if_pos hk] at h
      rcases List.mem_cons.1 h with rfl | h
      · exact hv
      · exact hacc kv (List.mem_cons_of_mem _ h)
    · simp only [setField, if_neg hk] at h
      rcases List.mem_cons.1 h with rfl | h
      · exact hacc _ (List.mem_cons_self _ _)
      · exact ih (fun kv h => hacc kv (List.mem_cons_of_mem _ h)) kv h

theorem json_no_undef : ∀ fuel : Nat,
    (∀ l v rem, jsonVal fuel l = some (v, rem) →
      v ≠ JsVal.vundef ∧ ∀ kv ∈ enumFields v, kv.2 ≠ JsVal.vundef) ∧
    (∀ l acc out rem, jsonMembers fuel l acc = some (out, rem) →
      (∀ kv ∈ acc, kv.2 ≠ JsVal.vundef) → ∀ kv ∈ out, kv.2 ≠ JsVal.vundef) ∧
    (∀ l acc out rem, jsonElems fuel l acc = some (out, rem) →
      (∀ e ∈ acc, e ≠ JsVal.vundef) → ∀ e ∈ out, e ≠ JsVal.vundef) := by
  intro fuel
  induction fuel with
  | zero =>
    refine ⟨?_, ?_, ?_⟩
    · intro l v rem h
      simp [jsonVal] at h
    · intro l acc out rem h
      simp [jsonMembers] at h
    · intro l acc out rem h
      simp [jsonElems] at h
  | succ fuel ih =>
    refine ⟨?_, ?_, ?_⟩
    · intro l v rem h
      rcases l with _ | ⟨c, rest⟩
      · simp [jsonVal] at h
      · simp only [jsonVal] at h
        split at h
        · -- object
          split at h
          · split at h
            · rw [Option.some.injEq, Prod.mk.injEq] at h
              obtain ⟨h1, h2⟩ := h
              subst h1
              exact ⟨by simp, by simp [enumFields]⟩
            · split at h
              · rename_i fs rem2 hm
                rw [Option.some.injEq, Prod.mk.injEq] at h
                obtain ⟨h1, h2⟩ := h
                subst h1
                refine ⟨by simp, ?_⟩
                simp only [enumFields]
                exact ih.2.1 _ _ _ _ hm (by intro kv hk; cases hk)
              · cases h
          · cases h
        · split at h
          · -- array
            split at h
            · split at h
              · rw [Option.some.injEq, Prod.mk.injEq] at h
                obtain ⟨h1, h2⟩ := h
                subst h1
                exact ⟨by simp, by simp [enumFields]⟩
              · split at h
                · rename_i es rem2 he
                  rw [Option.some.injEq, Prod.mk.injEq] at h
                  obtain ⟨h1, h2⟩ := h
                  subst h1
                  refine ⟨by simp, ?_⟩
                  intro kv hkv
                  simp only [enumFields, List.mem_map] at hkv
                  obtain ⟨p, hp, hpe⟩ := hkv
                  have hmem : p.2 ∈ es := snd_mem_of_mem_enum hp
                  have h3 := ih.2.2 _ _ _ _ he (by intro e hh; cases hh) p.2 hmem
                  rw [← hpe]
                  exact h3
                · cases h
            · cases h
          · split at h
            · -- string
              split at h
              · rw [Option.some.injEq, Prod.mk.injEq] at h
                obtain ⟨h1, h2⟩ := h
                subst h1
                exact ⟨by simp, by simp [enumFields]⟩
              · cases h
            · split at h
              · -- true
                split at h
                · rw [Option.some.injEq, Prod.mk.injEq] at h
                  obtain ⟨h1, h2⟩ := h
                  subst h1
                  exact ⟨by simp, by simp [enumFields]⟩
                · cases h
              · split at h
                · -- false
                  split at h
                  · rw [Option.some.injEq, Prod.mk.injEq] at h
                    obtain ⟨h1, h2⟩ := h
                    subst h1
                    exact ⟨by simp, by simp [enumFields]⟩
                  · cases h
                · split at h
                  · -- null
                    split at h
                    · rw [Option.some.injEq, Prod.mk.injEq] at h
                      obtain ⟨h1, h2⟩ := h
                      subst h1
                      exact ⟨by simp, by simp [enumFields]⟩
                    · cases h
                  · -- number
                    obtain ⟨n, hn⟩ := jsonNum_shape h
                    subst hn
                    exact ⟨by simp, by simp [enumFields]⟩
    · intro l acc out rem h hacc
      rcases l with _ | ⟨c, rest⟩
      · simp [jsonMembers] at h
      · simp only [jsonMembers] at h
        split at h
        · split at h
          · split at h
            · split at h
              · rename_i v0 rem3 hv0
                have hv0u : v0 ≠ JsVal.vundef := (ih.1 _ _ _ hv0).1
                split at h
                · exact ih.2.1 _ _ _ _ h
                    (setField_forall (P := fun w => w ≠ JsVal.vundef) hacc hv0u)
                · split at h
                  · rw [Option.some.injEq, Prod.mk.injEq] at h
                    obtain ⟨h1, h2⟩ := h
                    subst h1
                    exact setField_forall (P := fun w => w ≠ JsVal.vundef) hacc hv0u
                  · cases h
                · cases h
              · cases h
            · cases h
          · cases h
        · cases h
    · intro l acc out rem h hacc
      simp only [jsonElems] at h
      split at h
      · rename_i v0 rem0 hv0
        have hv0u : v0 ≠ JsVal.vundef := (ih.1 _ _ _ hv0).1
        have hacc2 : ∀ e ∈ acc ++ [v0], e ≠ JsVal.vundef := by
          intro e he
          rcases List.mem_append.1 he with he | he
          · exact hacc e he
          · rcases List.mem_singleton.1 he with rfl
            exact hv0u
        split at h
        · exact ih.2.2 _ _ _ _ h hacc2
        · rw [Option.some.injEq, Prod.mk.injEq] at h
          obtain ⟨h1, h2⟩ := h
          subst h1
          exact hacc2
        · cases h
      · cases h

theorem jsonParse_no_undef {s : String} {p : JsVal} (h : jsonParse s = some p) :
    ∀ kv ∈ enumFields p, kv.2 ≠ JsVal.vundef := by
  unfold jsonParse at h
  split at h
  · rename_i v rem hjv
    split at h
    · rw [Option.some.injEq] at h
      subst h
      exact ((json_no_undef _).1 _ _ _ hjv).2
    · cases h
  · cases h

theorem nja_src_exists (e : Option String) :
    ∃ J : Fields, (∀ fs, nestedJsonAssign fs e = assignFields fs J)
      ∧ ∀ kv ∈ J, kv.2 ≠ JsVal.vundef := by
  rcases e with _ | s
  · exact ⟨[], fun fs => rfl, by simp⟩
  · by_cases hs : s = ""
    · refine ⟨[], fun fs => ?_, by simp⟩
      simp [nestedJsonAssign, hs, assignFields]
    · rcases hp : jsonParse s with _ | p
      · refine ⟨[], fun fs => ?_, by simp⟩
        simp [nestedJsonAssign, hs, hp, assignFields]
      · by_cases ho : isObjectTypeNonNull p
        · refine ⟨enumFields p, fun fs => ?_, jsonParse_no_undef hp⟩
          simp [nestedJsonAssign, hs, hp, ho]
        · refine ⟨[], fun fs => ?_, by simp⟩
          simp [nestedJsonAssign, hs, hp, ho, assignFields]

/-! ### The nested-record pass as a per-field map (claim C8 support) -/

theorem primB_facts {v : JsVal} (h : primB v = true) :
    isPlainObject v = false ∧ isObjectNonArray v = false := by
  cases v <;> simp_all [primB, isPlainObject, isObjectNonArray]

theorem assignFields_cons_src (l : Fields) (k : String) (u : JsVal) (src : Fields) :
    assignFields l ((k, u) :: src) = assignFields (setField l k u) src := rfl

theorem setField_head (k : String) (w u : JsVal) (C : Fields) :
    setField ((k, w) :: C) k u = (k, u) :: C := by
  simp [setField]

theorem cleanFieldsB_nodup {fs : Fields} (h : cleanFieldsB fs = true) :
    (fs.map Prod.fst).Nodup := by
  induction fs with
  | nil => simp
  | cons hd tl ih =>
    obtain ⟨k2, w⟩ := hd
    simp only [cleanFieldsB, Bool.and_eq_true, Bool.not_eq_true'] at h
    refine List.nodup_cons.mpr ⟨fun hm => ?_, ih h.2⟩
    rw [← keyMemB_iff] at hm
    simp [hm] at h

theorem cleanFieldsB_mem {fs : Fields} (h : cleanFieldsB fs = true) :
    ∀ kv ∈ fs, recCleanB kv.2 = true := by
  induction fs with
  | nil => intro kv hkv; cases hkv
  | cons hd tl ih =>
    obtain ⟨k2, w⟩ := hd
    simp only [cleanFieldsB, Bool.and_eq_true] at h
    intro kv hkv
    rcases List.mem_cons.1 hkv with rfl | hkv
    · exact h.1.2
    · exact ih h.2 kv hkv

theorem recCleanB_ne_undef {v : JsVal} (h : recCleanB v = true) :
    v ≠ JsVal.vundef := by
  cases v <;> simp_all [recCleanB]

theorem lnStep_not_plain {env : EnvMap} {p k : String} {v : JsVal}
    (h : isPlainObject v = false) :
    lnStep env p k v = match envGet env (buildEnvVarName p k) with
      | some s => if s ≠ "" then coerceValue s (typeofStr v) else cloneVal v
      | none => cloneVal v := by
  unfold lnStep
  rw [if_neg (by simp [h])]

theorem lnStep_ne_undef (env : EnvMap) (p k : String) (v : JsVal) :
    lnStep env p k v ≠ JsVal.vundef := by
  unfold lnStep
  by_cases hp : isPlainObject v
  · rw [if_pos hp]
    cases v <;> simp_all [isPlainObject, lnValUpdate]
  · rw [if_neg hp]
    rcases he : envGet env (buildEnvVarName p k) with _ | s
    · exact cloneVal_ne_undef v
    · dsimp only
      by_cases hs : s = ""
      · rw [if_neg (by simp [hs])]
        exact cloneVal_ne_undef v
      · rw [if_pos hs]
        exact coerce_ne_undef s _

theorem ln_core_eq_map {B : Fields} (env : EnvMap) (p : String)
    (hnd : (B.map Prod.fst).Nodup) (hnu : ∀ kv ∈ B, kv.2 ≠ JsVal.vundef) :
    assignFields (cloneFields B) (lnUpdates env p B)
      = B.map fun kv => (kv.1, lnStep env p kv.1 kv.2) := by
  induction B with
  | nil => rfl
  | cons hd tl ih =>
    obtain ⟨k, v⟩ := hd
    simp only [List.map_cons, List.nodup_cons] at hnd
    have hv : v ≠ JsVal.vundef := hnu _ (List.mem_cons_self _ _)
    have hnu2 : ∀ kv ∈ tl, kv.2 ≠ JsVal.vundef :=
      fun kv h => hnu kv (List.mem_cons_of_mem _ h)
    have hknotin : k ∉ (lnUpdates env p tl).map Prod.fst :=
      fun hmem => hnd.1 (lnUpdates_keys_subset env p tl k hmem)
    have ihh := ih hnd.2 hnu2
    rw [cloneFields_cons hv]
    simp only [lnUpdates]
    by_cases hpl : isPlainObject v
    · rw [if_pos hpl, assignFields_cons_src, setField_head,
        assignFields_cons_of_not_mem _ _ hknotin, ihh, List.map_cons]
      congr 1
      simp [lnStep, hpl]
    · rw [if_neg hpl]
      rcases he : envGet env (buildEnvVarName p k) with _ | s
      · dsimp only
        rw [assignFields_cons_of_not_mem _ _ hknotin, ihh, List.map_cons]
        congr 1
        simp [lnStep, hpl, he]
      · by_cases hs : s = ""
        · dsimp only
          rw [if_neg (by simp [hs]), assignFields_cons_of_not_mem _ _ hknotin,
            ihh, List.map_cons]
          congr 1
          simp [lnStep, hpl, he, hs]
        · dsimp only
          rw [if_pos hs, assignFields_cons_src, setField_head,
            assignFields_cons_of_not_mem _ _ hknotin, ihh, List.map_cons]
          congr 1
          simp [lnStep, hpl, he, hs]

theorem map_upd_map_eq {B d J : Fields} {f : String × JsVal → String × JsVal}
    (hstep1 : ∀ kv, (f kv).1 = kv.1)
    (hndB : (B.map Prod.fst).Nodup)
    (hB : B = assignFields d J)
    (hidem : ∀ kv ∈ B, kv.1 ∉ J.map Prod.fst → f (f kv) = f kv) :
    ((B.map f).map fun kv => (kv.1, assignVal J kv.1 kv.2)).map f
      = B.map f := by
  rw [List.map_map, List.map_map]
  refine List.map_congr_left fun kv hkv => ?_
  obtain ⟨k, x⟩ := kv
  dsimp only [Function.comp_apply]
  by_cases hm : k ∈ J.map Prod.fst
  · have hget : getField B k = some x := getField_of_mem_nodup hndB hkv
    rw [hB, getField_assignFields] at hget
    have h2 := assignLook_eq_assignVal hm (getField d k) ((f (k, x)).2)
    have hx : x = assignVal J k ((f (k, x)).2) :=
      Option.some.inj (hget.symm.trans h2)
    have heq : ((f (k, x)).1, assignVal J (f (k, x)).1 (f (k, x)).2)
        = (k, x) := by
      rw [hstep1 (k, x), ← hx]
    rw [heq]
  · have heq : ((f (k, x)).1, assignVal J (f (k, x)).1 (f (k, x)).2)
        = f (k, x) := by
      rw [hstep1 (k, x), assignVal_of_not_mem hm]
      exact Prod.ext (hstep1 (k, x)).symm rfl
    rw [heq]
    exact hidem (k, x) hkv hm

theorem ln_idem_core (env : EnvMap) (name : String) {d J B : Fields}
    (hB : B = assignFields d J)
    (hnd0 : (d.map Prod.fst).Nodup)
    (hJu : ∀ kv ∈ J, kv.2 ≠ JsVal.vundef)
    (hstepidem : ∀ kv ∈ B, kv.1 ∉ J.map Prod.fst →
      lnStep env name kv.1 (lnStep env name kv.1 kv.2) = lnStep env name kv.1 kv.2) :
    assignFields
      (cloneFields (assignFields
        (B.map fun kv => (kv.1, lnStep env name kv.1 kv.2)) J))
      (lnUpdates env name
        (assignFields (B.map fun kv => (kv.1, lnStep env name kv.1 kv.2)) J))
      = B.map fun kv => (kv.1, lnStep env name kv.1 kv.2) := by
  have hndB : (B.map Prod.fst).Nodup := by
    rw [hB]; exact keys_assignFields_nodup J hnd0
  have hkeys1 : ((B.map fun kv => (kv.1, lnStep env name kv.1 kv.2)).map Prod.fst)
      = B.map Prod.fst :=
    keys_map_of_fst (f := fun kv => (kv.1, lnStep env name kv.1 kv.2))
      (fun kv => rfl) B
  have hnd1 : ((B.map fun kv => (kv.1, lnStep env name kv.1 kv.2)).map Prod.fst).Nodup := by
    rw [hkeys1]; exact hndB
  have hsubJ : ∀ x ∈ J.map Prod.fst,
      x ∈ (B.map fun kv => (kv.1, lnStep env name kv.1 kv.2)).map Prod.fst := by
    intro x hx
    rw [hkeys1, hB]
    exact mem_keys_assignFields_src hx
  have hnu2 : ∀ kv ∈ assignFields (B.map fun kv => (kv.1, lnStep env name kv.1 kv.2)) J,
      kv.2 ≠ JsVal.vundef := by
    intro kv hkv
    have hget : getField (assignFields
        (B.map fun kv => (kv.1, lnStep env name kv.1 kv.2)) J) kv.1 = some kv.2 :=
      getField_of_mem_nodup (keys_assignFields_nodup J hnd1) hkv
    rw [getField_assignFields] at hget
    by_cases hm : kv.1 ∈ J.map Prod.fst
    · have h2 := assignLook_eq_assignVal hm
        (getField (B.map fun kv => (kv.1, lnStep env name kv.1 kv.2)) kv.1) JsVal.vnull
      have hx : kv.2 = assignVal J kv.1 JsVal.vnull :=
        Option.some.inj (hget.symm.trans h2)
      rw [hx]
      exact hJu _ (assignVal_mem hm _)
    · rw [assignLook_of_not_mem _ _ _ hm] at hget
      have hmem := mem_of_getField hget
      obtain ⟨kv0, hkv0, heq⟩ := List.mem_map.1 hmem
      have hval : kv.2 = lnStep env name kv0.1 kv0.2 :=
        (congrArg Prod.snd heq).symm
      rw [hval]
      exact lnStep_ne_undef env name kv0.1 kv0.2
  rw [ln_core_eq_map env name (keys_assignFields_nodup J hnd1) hnu2,
    assignFields_map_of_subset hnd1 hsubJ]
  refine map_upd_map_eq (f := fun kv => (kv.1, lnStep env name kv.1 kv.2))
    (fun kv => rfl) hndB hB ?_
  intro kv hkv hm
  dsimp only
  rw [hstepidem kv hkv hm]

theorem lnStep_idem_aux : ∀ n : Nat, ∀ v : JsVal, sizeOf v ≤ n →
    recCleanB v = true → ∀ env p k,
    lnStep env p k (lnStep env p k v) = lnStep env p k v := by
  intro n
  induction n using Nat.strong_induction_on with
  | _ n ih =>
    intro v hv hcl env p k
    by_cases hpl : isPlainObject v
    · rcases v with _ | _ | _ | _ | _ | _ | inner | cfs | es | ⟨rs, rfs⟩ <;>
        try simp [isPlainObject] at hpl
      -- v = .vobj inner
      have hclI : cleanFieldsB inner = true := by simpa [recCleanB] using hcl
      have hndI : (inner.map Prod.fst).Nodup := cleanFieldsB_nodup hclI
      have hnuI : ∀ kv ∈ inner, kv.2 ≠ JsVal.vundef := fun kv hkv =>
        recCleanB_ne_undef (cleanFieldsB_mem hclI kv hkv)
      have h1 : lnStep env p k (.vobj inner)
          = .vobj (assignFields (cloneFields inner)
              (lnUpdates env (buildEnvVarName p k) inner)) := by
        simp [lnStep, isPlainObject, lnValUpdate]
      have hA := ln_core_eq_map (B := inner) env (buildEnvVarName p k) hndI hnuI
      have hidem : ∀ kv ∈ inner, kv.1 ∉ ([] : Fields).map Prod.fst →
          lnStep env (buildEnvVarName p k) kv.1
              (lnStep env (buildEnvVarName p k) kv.1 kv.2)
            = lnStep env (buildEnvVarName p k) kv.1 kv.2 := by
        intro kv hkv _
        have hsz : sizeOf kv.2 < sizeOf (JsVal.vobj inner) := by
          obtain ⟨k2, w⟩ := kv
          have h2 := sizeOf_lt_of_mem_fields hkv
          simp only [JsVal.vobj.sizeOf_spec]
          omega
        exact ih (sizeOf kv.2) (Nat.lt_of_lt_of_le hsz hv) kv.2 le_rfl
          (cleanFieldsB_mem hclI kv hkv) env (buildEnvVarName p k) kv.1
      have hcore := ln_idem_core env (buildEnvVarName p k)
        (d := inner) (J := []) (B := inner) rfl hndI (by simp) hidem
      rw [h1, hA]
      have h2 : lnStep env p k (.vobj (inner.map fun kv =>
          (kv.1, lnStep env (buildEnvVarName p k) kv.1 kv.2)))
          = .vobj (assignFields
              (cloneFields (inner.map fun kv =>
                (kv.1, lnStep env (buildEnvVarName p k) kv.1 kv.2)))
              (lnUpdates env (buildEnvVarName p k)
                (inner.map fun kv =>
                  (kv.1, lnStep env (buildEnvVarName p k) kv.1 kv.2)))) := by
        simp [lnStep, isPlainObject, lnValUpdate]
      rw [h2]
      exact congrArg JsVal.vobj hcore
    · have hpl2 : isPlainObject v = false := by simpa using hpl
      have hclone_notplain : isPlainObject (cloneVal v) = false := by
        cases v <;> simp_all [recCleanB, isPlainObject, cloneVal]
      rcases he : envGet env (buildEnvVarName p k) with _ | s
      · rw [lnStep_not_plain hpl2, he]
        dsimp only
        rw [lnStep_not_plain hclone_notplain, he]
        exact cloneVal_idem v
      · by_cases hs : s = ""
        · rw [lnStep_not_plain hpl2, he]
          dsimp only
          rw [if_neg (by simp [hs]), lnStep_not_plain hclone_notplain, he]
          dsimp only
          rw [if_neg (by simp [hs])]
          exact cloneVal_idem v
        · rw [lnStep_not_plain hpl2, he]
          dsimp only
          rw [if_pos hs]
          have hcp : isPlainObject (coerceValue s (typeofStr v)) = false :=
            (primB_facts (coerce_primB s (typeofStr v))).1
          rw [lnStep_not_plain hcp, he]
          dsimp only
          rw [if_pos hs]
          exact coerce_fix s (typeofStr v)

theorem lnStep_idem {v : JsVal} (hcl : recCleanB v = true) (env : EnvMap)
    (p k : String) :
    lnStep env p k (lnStep env p k v) = lnStep env p k v :=
  lnStep_idem_aux (sizeOf v) v le_rfl hcl env p k

/-! ### Idempotence of the structured passes (claim C8 support) -/

theorem applyNestedObject_idem (env : EnvMap) (name : String) (fs : Fields)
    (hcl : cleanFieldsB fs = true) :
    applyNestedObject name (applyNestedObject name (.vobj fs) env) env
      = applyNestedObject name (.vobj fs) env := by
  obtain ⟨J, hJ, hJu⟩ := nja_src_exists (envGet env name)
  have hnd0 : (fs.map Prod.fst).Nodup := cleanFieldsB_nodup hcl
  have hndB : ((assignFields fs J).map Prod.fst).Nodup :=
    keys_assignFields_nodup J hnd0
  have hnuB : ∀ kv ∈ assignFields fs J, kv.2 ≠ JsVal.vundef := by
    intro kv hkv
    have hget : getField (assignFields fs J) kv.1 = some kv.2 :=
      getField_of_mem_nodup hndB hkv
    rw [getField_assignFields] at hget
    by_cases hm : kv.1 ∈ J.map Prod.fst
    · have h2 := assignLook_eq_assignVal hm (getField fs kv.1) JsVal.vnull
      have hx : kv.2 = assignVal J kv.1 JsVal.vnull :=
        Option.some.inj (hget.symm.trans h2)
      rw [hx]
      exact hJu _ (assignVal_mem hm _)
    · rw [assignLook_of_not_mem _ _ _ hm] at hget
      exact recCleanB_ne_undef (cleanFieldsB_mem hcl _ (mem_of_getField hget))
  have hstepidem : ∀ kv ∈ assignFields fs J, kv.1 ∉ J.map Prod.fst →
      lnStep env name kv.1 (lnStep env name kv.1 kv.2) = lnStep env name kv.1 kv.2 := by
    intro kv hkv hm
    have hget : getField (assignFields fs J) kv.1 = some kv.2 :=
      getField_of_mem_nodup hndB hkv
    rw [getField_assignFields, assignLook_of_not_mem _ _ _ hm] at hget
    exact lnStep_idem (cleanFieldsB_mem hcl _ (mem_of_getField hget)) env name kv.1
  have hr1 : applyNestedObject name (.vobj fs) env
      = .vobj ((assignFields fs J).map fun kv => (kv.1, lnStep env name kv.1 kv.2)) := by
    show JsVal.vobj (loadNestedFromEnv name
      (nestedJsonAssign fs (envGet env name)) env) = _
    rw [hJ fs]
    exact congrArg JsVal.vobj (ln_core_eq_map env name hndB hnuB)
  rw [hr1]
  show JsVal.vobj (loadNestedFromEnv name
      (nestedJsonAssign
        ((assignFields fs J).map fun kv => (kv.1, lnStep env name kv.1 kv.2))
        (envGet env name)) env) = _
  rw [hJ _]
  exact congrArg JsVal.vobj (ln_idem_core env name rfl hnd0 hJu hstepidem)

theorem acvStep_fst (env : EnvMap) (ek : String) (kv : String × JsVal) :
    (acvStep env ek kv).1 = kv.1 := by
  obtain ⟨k, w⟩ := kv
  unfold acvStep
  repeat' split
  all_goals rfl

theorem isObjectNonArray_withFields (v : JsVal) (fs : Fields) :
    isObjectNonArray (withFields v fs) = isObjectNonArray v := by
  cases v <;> rfl

theorem fieldsOf_withFields {v : JsVal} (hobj : isObjectNonArray v = true)
    (fs : Fields) : fieldsOf (withFields v fs) = fs := by
  cases v <;> simp_all [isObjectNonArray, withFields, fieldsOf]

theorem withFields_withFields (v : JsVal) (fs fs2 : Fields) :
    withFields (withFields v fs) fs2 = withFields v fs2 := by
  cases v <;> rfl

theorem deepNodupB_fieldsOf {v : JsVal} (hobj : isObjectNonArray v = true)
    (h : deepNodupB v = true) : nodupFieldsB (fieldsOf v) = true := by
  cases v <;> simp_all [isObjectNonArray, deepNodupB, fieldsOf]

theorem acv_idem_aux : ∀ n : Nat, ∀ v : JsVal, sizeOf v ≤ n →
    isObjectNonArray v = true → deepNodupB v = true → ∀ env ek,
    applyComplexObject env ek (applyComplexObject env ek v)
      = applyComplexObject env ek v := by
  intro n
  induction n using Nat.strong_induction_on with
  | _ n ih =>
    intro v hv hobj hnd env ek
    obtain ⟨J, hJ, hJu⟩ := nja_src_exists (envGet env ek)
    have hnd0 : ((fieldsOf v).map Prod.fst).Nodup :=
      nodupFieldsB_nodup (deepNodupB_fieldsOf hobj hnd)
    have hndB : ((assignFields (fieldsOf v) J).map Prod.fst).Nodup :=
      keys_assignFields_nodup J hnd0
    have hr1 : applyComplexObject env ek v
        = withFields v ((assignFields (fieldsOf v) J).map (acvStep env ek)) := by
      rw [applyComplexObject_eq env ek v hobj, hJ]
    have hobj1 : isObjectNonArray
        (withFields v ((assignFields (fieldsOf v) J).map (acvStep env ek))) = true := by
      rw [isObjectNonArray_withFields]
      exact hobj
    rw [hr1, applyComplexObject_eq env ek _ hobj1,
      fieldsOf_withFields hobj, hJ, withFields_withFields]
    congr 1
    have hkeys1 : (((assignFields (fieldsOf v) J).map (acvStep env ek)).map Prod.fst)
        = (assignFields (fieldsOf v) J).map Prod.fst :=
      keys_map_of_fst (f := acvStep env ek) (acvStep_fst env ek) _
    have hnd1 : ((((assignFields (fieldsOf v) J).map (acvStep env ek))).map Prod.fst).Nodup := by
      rw [hkeys1]
      exact hndB
    have hsubJ : ∀ x ∈ J.map Prod.fst,
        x ∈ ((assignFields (fieldsOf v) J).map (acvStep env ek)).map Prod.fst := by
      intro x hx
      rw [hkeys1]
      exact mem_keys_assignFields_src hx
    rw [assignFields_map_of_subset hnd1 hsubJ]
    refine map_upd_map_eq (f := acvStep env ek) (acvStep_fst env ek) hndB rfl ?_
    intro kv hkv hm
    obtain ⟨k, x⟩ := kv
    have hget : getField (assignFields (fieldsOf v) J) k = some x :=
      getField_of_mem_nodup hndB hkv
    rw [getField_assignFields, assignLook_of_not_mem _ _ _ hm] at hget
    have hmem : (k, x) ∈ fieldsOf v := mem_of_getField hget
    have hxnd : deepNodupB x = true :=
      nodupFieldsB_mem (deepNodupB_fieldsOf hobj hnd) _ hmem
    have hszx : sizeOf x < sizeOf v := sizeOf_field_lt_of_objectLike hobj hmem
    by_cases hxobj : isObjectNonArray x
    · by_cases hlt : ek.length < (if ek ≠ "" then ek ++ "_" ++ upStr (toSnakeCase k)
          else upStr (toSnakeCase k)).length
      · have hstep : acvStep env ek (k, x)
            = (k, applyComplexObject env
                (if ek ≠ "" then ek ++ "_" ++ upStr (toSnakeCase k)
                 else upStr (toSnakeCase k)) x) := by
          unfold acvStep
          dsimp only
          rw [if_pos hxobj, if_pos hlt]
        have hy : isObjectNonArray (applyComplexObject env
            (if ek ≠ "" then ek ++ "_" ++ upStr (toSnakeCase k)
             else upStr (toSnakeCase k)) x) = true := by
          rw [applyComplexObject_eq env _ x hxobj, isObjectNonArray_withFields]
          exact hxobj
        have hstep2 : acvStep env ek (k, applyComplexObject env
              (if ek ≠ "" then ek ++ "_" ++ upStr (toSnakeCase k)
               else upStr (toSnakeCase k)) x)
            = (k, applyComplexObject env
                (if ek ≠ "" then ek ++ "_" ++ upStr (toSnakeCase k)
                 else upStr (toSnakeCase k))
                (applyComplexObject env
                  (if ek ≠ "" then ek ++ "_" ++ upStr (toSnakeCase k)
                   else upStr (toSnakeCase k)) x)) := by
          unfold acvStep
          dsimp only
          rw [if_pos hy, if_pos hlt]
        rw [hstep, hstep2,
          ih (sizeOf x) (Nat.lt_of_lt_of_le hszx hv) x le_rfl hxobj hxnd env _]
      · have hstep : acvStep env ek (k, x) = (k, x) := by
          unfold acvStep
          dsimp only
          rw [if_pos hxobj, if_neg hlt]
        rw [hstep, hstep]
    · have hxo : isObjectNonArray x = false := by simpa using hxobj
      rcases he : envGet env (if ek ≠ "" then ek ++ "_" ++ upStr (toSnakeCase k)
          else upStr (toSnakeCase k)) with _ | s
      · have hstep : acvStep env ek (k, x) = (k, x) := by
          unfold acvStep
          dsimp only
          rw [if_neg (by simp [hxo]), he]
        rw [hstep, hstep]
      · by_cases hs : s = ""
        · have hstep : acvStep env ek (k, x) = (k, x) := by
            unfold acvStep
            dsimp only
            rw [if_neg (by simp [hxo]), he]
            dsimp only
            rw [if_neg (by simp [hs])]
          rw [hstep, hstep]
        · have hstep : acvStep env ek (k, x) = (k, coerceValue s (typeofStr x)) := by
            unfold acvStep
            dsimp only
            rw [if_neg (by simp [hxo]), he]
            dsimp only
            rw [if_pos hs]
          have hco : isObjectNonArray (coerceValue s (typeofStr x)) = false :=
            (primB_facts (coerce_primB s (typeofStr x))).2
          have hstep2 : acvStep env ek (k, coerceValue s (typeofStr x))
              = (k, coerceValue s (typeofStr (coerceValue s (typeofStr x)))) := by
            unfold acvStep
            dsimp only
            rw [if_neg (by simp [hco]), he]
            dsimp only
            rw [if_pos hs]
          rw [hstep, hstep2, coerce_fix]

theorem acv_idem {v : JsVal} (hobj : isObjectNonArray v = true)
    (hnd : deepNodupB v = true) (env : EnvMap) (ek : String) :
    applyComplexObject env ek (applyComplexObject env ek v)
      = applyComplexObject env ek v :=
  acv_idem_aux (sizeOf v) v le_rfl hobj hnd env ek

/-! ### Claim C8: idempotence of populate -/

theorem parseField_idem (env : EnvMap) (pfx : String) (k : String) (v : JsVal)
    (hsafe : fieldIdemSafeB v = true) :
    parseField env pfx (parseField env pfx (k, v)) = parseField env pfx (k, v) := by
  cases v with
  | vstr s => exact parseField_prim_idem (by rfl) env pfx k
  | vint n => exact parseField_prim_idem (by rfl) env pfx k
  | vnan => exact parseField_prim_idem (by rfl) env pfx k
  | vbool b => exact parseField_prim_idem (by rfl) env pfx k
  | vnull => exact parseField_prim_idem (by rfl) env pfx k
  | vundef => exact parseField_prim_idem (by rfl) env pfx k
  | varr es => simp [fieldIdemSafeB] at hsafe
  | vobj fs =>
    have hcl : cleanFieldsB fs = true := by simpa [fieldIdemSafeB] using hsafe
    show ((k : String), applyNestedObject (buildEnvVarName pfx k)
        (applyNestedObject (buildEnvVarName pfx k) (.vobj fs) env) env)
      = ((k : String), applyNestedObject (buildEnvVarName pfx k) (.vobj fs) env)
    exact congrArg (fun w => ((k : String), w))
      (applyNestedObject_idem env (buildEnvVarName pfx k) fs hcl)
  | vcomp cfs =>
    have hnd2 : deepNodupB (JsVal.vcomp cfs) = true := by
      simpa [fieldIdemSafeB, deepNodupB] using hsafe
    have h1 : applyComplexObject env (buildEnvVarName pfx k) (.vcomp cfs)
        = .vcomp ((nestedJsonAssign cfs (envGet env (buildEnvVarName pfx k))).map
            (acvStep env (buildEnvVarName pfx k))) := by
      rw [applyComplexObject_eq env _ _ (by rfl)]
      rfl
    have h0 : parseField env pfx (k, JsVal.vcomp cfs)
        = (k, applyComplexObject env (buildEnvVarName pfx k) (.vcomp cfs)) := rfl
    rw [h0, h1]
    show ((k : String), applyComplexObject env (buildEnvVarName pfx k)
        (.vcomp ((nestedJsonAssign cfs (envGet env (buildEnvVarName pfx k))).map
          (acvStep env (buildEnvVarName pfx k)))))
      = ((k : String), JsVal.vcomp
          ((nestedJsonAssign cfs (envGet env (buildEnvVarName pfx k))).map
            (acvStep env (buildEnvVarName pfx k))))
    rw [← h1]
    exact congrArg (fun w => ((k : String), w))
      (acv_idem (by rfl) hnd2 env (buildEnvVarName pfx k))
  | vregexp rs rfs =>
    have hnd2 : deepNodupB (JsVal.vregexp rs rfs) = true := by
      simpa [fieldIdemSafeB, deepNodupB] using hsafe
    have h1 : applyComplexObject env (buildEnvVarName pfx k) (.vregexp rs rfs)
        = .vregexp rs ((nestedJsonAssign rfs (envGet env (buildEnvVarName pfx k))).map
            (acvStep env (buildEnvVarName pfx k))) := by
      rw [applyComplexObject_eq env _ _ (by rfl)]
      rfl
    have h0 : parseField env pfx (k, JsVal.vregexp rs rfs)
        = (k, applyComplexObject env (buildEnvVarName pfx k) (.vregexp rs rfs)) := rfl
    rw [h0, h1]
    show ((k : String), applyComplexObject env (buildEnvVarName pfx k)
        (.vregexp rs ((nestedJsonAssign rfs (envGet env (buildEnvVarName pfx k))).map
          (acvStep env (buildEnvVarName pfx k)))))
      = ((k : String), JsVal.vregexp rs
          ((nestedJsonAssign rfs (envGet env (buildEnvVarName pfx k))).map
            (acvStep env (buildEnvVarName pfx k))))
    rw [← h1]
    exact congrArg (fun w => ((k : String), w))
      (acv_idem (by rfl) hnd2 env (buildEnvVarName pfx k))

/-- **C8 counterexample.** The claim fails as stated: with target
`{items: [{id: 0}]}` and flat map `{ITEMS_0_ID: '1', ITEMS_1_A: 'x'}` the
first populate yields `{items: [{id: 1}, {id: 0}]}` (the second positional
index clones the original first element as its template), but populating
that result again with the same flat map yields `{items: [{id: 1}, {id: 1}]}`
— the template for index 1 is now the already-populated element 0 — so
populate is not idempotent. -/
theorem claim_C8_counterexample :
    parseObject (.vobj [("items", .varr [.vobj [("id", .vint 0)]])]) ""
        [("ITEMS_0_ID", "1"), ("ITEMS_1_A", "x")]
      = .ok (.vobj [("items",
          .varr [.vobj [("id", .vint 1)], .vobj [("id", .vint 0)]])])
    ∧ parseObject (.vobj [("items",
          .varr [.vobj [("id", .vint 1)], .vobj [("id", .vint 0)]])]) ""
        [("ITEMS_0_ID", "1"), ("ITEMS_1_A", "x")]
      = .ok (.vobj [("items",
          .varr [.vobj [("id", .vint 1)], .vobj [("id", .vint 1)]])])
    ∧ JsVal.vobj [("items",
          JsVal.varr [.vobj [("id", .vint 1)], .vobj [("id", .vint 1)]])]
      ≠ JsVal.vobj [("items",
          JsVal.varr [.vobj [("id", .vint 1)], .vobj [("id", .vint 0)]])] := by
  refine ⟨rfl, rfl, ?_⟩
  simp

/-- **C8 (amended).**  Populate is idempotent on targets without
array-valued fields: if every field of the target record is a non-array
value — record-clean for plain records (deduplicated keys, no class
instances, pattern values or `undefined`-valued sub-fields) and
key-deduplicated for composites — then running the populate pass a second
time on the already-populated target with the same flat map returns it
unchanged.  Arrays are excluded by the counterexample: positional keys
clone the current first element as a template, which changes between
runs. -/
theorem claim_C8_amended (target : JsVal) (pfx : String) (env : EnvMap)
    (t1 : JsVal) (hsafe : idemSafeB target = true)
    (h1 : parseObject target pfx env = .ok t1) :
    parseObject t1 pfx env = .ok t1 := by
  by_cases hok : pfx ≠ "" ∧ ¬ testPrefixPattern pfx
  · simp only [parseObject] at h1
    rw [if_pos hok] at h1
    cases h1
  · simp only [parseObject, if_neg hok] at h1 ⊢
    rw [Except.ok.injEq] at h1
    subst h1
    cases target with
    | vobj fs =>
      have hmap : (fs.map (parseField env pfx)).map (parseField env pfx)
          = fs.map (parseField env pfx) := by
        rw [List.map_map]
        refine List.map_congr_left fun kv hkv => ?_
        obtain ⟨k, w⟩ := kv
        have hf : fieldIdemSafeB w = true := by
          simp only [idemSafeB, List.all_eq_true] at hsafe
          exact hsafe (k, w) hkv
        exact parseField_idem env pfx k w hf
      exact congrArg Except.ok (congrArg JsVal.vobj hmap)
    | vcomp fs =>
      have hmap : (fs.map (parseField env pfx)).map (parseField env pfx)
          = fs.map (parseField env pfx) := by
        rw [List.map_map]
        refine List.map_congr_left fun kv hkv => ?_
        obtain ⟨k, w⟩ := kv
        have hf : fieldIdemSafeB w = true := by
          simp only [idemSafeB, List.all_eq_true] at hsafe
          exact hsafe (k, w) hkv
        exact parseField_idem env pfx k w hf
      exact congrArg Except.ok (congrArg JsVal.vcomp hmap)
    | vstr s => rfl
    | vint n => rfl
    | vnan => rfl
    | vbool b => rfl
    | vnull => rfl
    | vundef => rfl
    | varr es => rfl
    | vregexp rs rfs => rfl

/-- Witness for the amended C8: a record with a number field and a nested
record populates to a fixed point — populating the populated result again
with the same flat map returns it unchanged. -/
theorem claim_C8_amended_witness :
    parseObject (.vobj [("a", .vint 5), ("nested", .vobj [("b", .vstr "y")])]) ""
        [("A", "5"), ("NESTED_B", "y")]
      = .ok (.vobj [("a", .vint 5), ("nested", .vobj [("b", .vstr "y")])]) :=
  claim_C8_amended
    (.vobj [("a", .vint 1), ("nested", .vobj [("b", .vstr "x")])]) ""
    [("A", "5"), ("NESTED_B", "y")]
    (.vobj [("a", .vint 5), ("nested", .vobj [("b", .vstr "y")])])
    (by decide) rfl

end AutoEnv
